import Mathlib

/-!
# external-dns-target-admission: the mutating admission webhook

A shallow embedding of `main.go`: the request handler `webhook`, the decision
function `mutate` and the patch builder `getJsonPatch`.

Conventions of the embedding.

* Go strings and byte slices that hold text are Lean `String`s (Unicode text);
  byte strings that are not valid UTF-8 are outside the model.  A nil byte
  slice and an empty one are both the empty string.
* A Go map is an association list with distinct keys; a nil map is `none`.
  The order of the list is the order in which keys were first set.
* A nil pointer is `none`; dereferencing it is the outcome `Outcome.panic`.
* Log output (logrus) is the list of entries written, in order.
* The program calls `encoding/json` on Kubernetes API types whose declarations
  are not part of the repository (`metav1.ObjectMeta`, `v1.AdmissionReview`).
  These three calls are parameters of the embedding (`EncodingJson`): the
  theorems about `mutate` and `webhook` hold for every behaviour of the
  library.  Of the API types, the fields the program reads are kept.
* `referenceJson` is one instance of the parameter, reduced to the kept
  fields: it reads and writes these fields the way `encoding/json` does and
  passes over the members of all other fields.  It is used to evaluate the
  program at concrete inputs, and its annotation reader
  (`decodeObjectWithMeta`) says which annotations a JSON document holds.  Its
  reader of JSON text has no nesting limit, takes fuel proportional to the
  length of the text (always enough, `parseJson_fuel_enough`), and gives the
  end-of-input error the text `encoding/json` gives it; other error texts are
  shortened.
* `json.Marshal` of the repository's own patch types is modelled in full: a
  value (`toJson`) written as compact text (`render`) with the escapes of
  `encoding/json` (before Go 1.22, which added short forms for U+0008 and
  U+000C; the decoded value is the same).
* JSON Patch (RFC 6902) is modelled as the API server applies the returned
  patch, for the operation `add`.
-/

set_option maxRecDepth 20000

namespace Webhook

/-! ## JSON values -/

/-- A JSON document.  A number keeps its literal text; an object keeps its
members in source order (duplicates included). -/
inductive Json where
  | null
  | bool (b : Bool)
  | num (text : String)
  | str (s : String)
  | arr (items : List Json)
  | obj (members : List (String × Json))

/-! ## Characters of the JSON grammar -/

def dquote : Char := Char.ofNat 34
def backslash : Char := Char.ofNat 92
def lbrace : Char := Char.ofNat 123
def rbrace : Char := Char.ofNat 125
def lbracket : Char := Char.ofNat 91
def rbracket : Char := Char.ofNat 93
def colon : Char := Char.ofNat 58
def comma : Char := Char.ofNat 44

/-- Insignificant whitespace: space, tab, carriage return, line feed. -/
def isSpace (c : Char) : Bool :=
  c.toNat = 32 || c.toNat = 9 || c.toNat = 13 || c.toNat = 10

def isDigit (c : Char) : Bool :=
  decide (48 ≤ c.toNat) && decide (c.toNat ≤ 57)

def skipWs : List Char → List Char
  | [] => []
  | c :: cs => if isSpace c then skipWs cs else c :: cs

/-! ## Reading JSON text -/

def errEOF : String := "unexpected end of JSON input"

/-- The error of a reader that ran out of `fuel`. -/
def errDepth : String := "exceeded max depth"

def hexVal (c : Char) : Option Nat :=
  if 48 ≤ c.toNat ∧ c.toNat ≤ 57 then some (c.toNat - 48)
  else if 97 ≤ c.toNat ∧ c.toNat ≤ 102 then some (c.toNat - 87)
  else if 65 ≤ c.toNat ∧ c.toNat ≤ 70 then some (c.toNat - 55)
  else none

def hex4 (a b c d : Char) : Option Nat :=
  match hexVal a, hexVal b, hexVal c, hexVal d with
  | some x, some y, some z, some w => some (((x * 16 + y) * 16 + z) * 16 + w)
  | _, _, _, _ => none

/-- The character a one-letter escape stands for, as a code unit. -/
def simpleEscape (e : Char) : Option Nat :=
  if e = dquote then some 34
  else if e = backslash then some 92
  else if e = '/' then some 47
  else if e = 'b' then some 8
  else if e = 'f' then some 12
  else if e = 'n' then some 10
  else if e = 'r' then some 13
  else if e = 't' then some 9
  else none

def consUnit (n : Nat) (r : Except String (List Nat × List Char)) :
    Except String (List Nat × List Char) :=
  match r with
  | .error e => .error e
  | .ok (units, rest) => .ok (n :: units, rest)

/-- Reads a string literal after its opening quote, up to and including the
closing quote.  Returns the code units of the string (a `\u` escape yields its
16-bit unit, any other character its code point) and the remaining input. -/
def scanString : List Char → Except String (List Nat × List Char)
  | [] => .error errEOF
  | c :: rest =>
    if c = dquote then .ok ([], rest)
    else if c = backslash then
      match rest with
      | [] => .error errEOF
      | e :: rest1 =>
        if e = 'u' then
          match rest1 with
          | a :: b :: x :: y :: rest2 =>
            match hex4 a b x y with
            | some n => consUnit n (scanString rest2)
            | none => .error "invalid character in \\u hexadecimal character escape"
          | _ => .error errEOF
        else
          match simpleEscape e with
          | some n => consUnit n (scanString rest1)
          | none => .error "invalid character in string escape code"
    else if c.toNat < 32 then .error "invalid character in string literal"
    else consUnit c.toNat (scanString rest)

def isSurrogate (n : Nat) : Bool := decide (0xD800 ≤ n) && decide (n < 0xE000)

def unitChar (n : Nat) : Char :=
  if isSurrogate n then Char.ofNat 0xFFFD else Char.ofNat n

/-- Turns code units into characters: a high surrogate followed by a low one is
one character, a lone surrogate is U+FFFD. -/
def decodeUnits : List Nat → List Char
  | [] => []
  | [n] => [unitChar n]
  | hi :: lo :: rest =>
    if 0xD800 ≤ hi ∧ hi < 0xDC00 ∧ 0xDC00 ≤ lo ∧ lo < 0xE000 then
      Char.ofNat (0x10000 + (hi - 0xD800) * 0x400 + (lo - 0xDC00)) :: decodeUnits rest
    else unitChar hi :: decodeUnits (lo :: rest)

def spanDigits : List Char → List Char × List Char
  | [] => ([], [])
  | c :: cs =>
    if isDigit c then ((c :: (spanDigits cs).1), (spanDigits cs).2) else ([], c :: cs)

/-- The optional fraction of a number: a point and at least one digit. -/
def scanFrac (cs : List Char) : Except String (List Char × List Char) :=
  match cs with
  | [] => .ok ([], [])
  | c :: r =>
    if c = '.' then
      match spanDigits r with
      | ([], []) => .error errEOF
      | ([], _ :: _) => .error "invalid character after decimal point in numeric literal"
      | (d :: ds, r1) => .ok (c :: d :: ds, r1)
    else .ok ([], c :: r)

/-- The optional sign of an exponent. -/
def scanSign (cs : List Char) : List Char × List Char :=
  match cs with
  | [] => ([], [])
  | s :: r => if s = '+' ∨ s = '-' then ([s], r) else ([], s :: r)

/-- The optional exponent of a number: `e` or `E`, an optional sign and at least
one digit. -/
def scanExp (cs : List Char) : Except String (List Char × List Char) :=
  match cs with
  | [] => .ok ([], [])
  | c :: r =>
    if c = 'e' ∨ c = 'E' then
      match spanDigits (scanSign r).2 with
      | ([], []) => .error errEOF
      | ([], _ :: _) => .error "invalid character in exponent of numeric literal"
      | (d :: ds, r1) => .ok (c :: (scanSign r).1 ++ d :: ds, r1)
    else .ok ([], c :: r)

/-- The optional fraction and exponent of a number. -/
def scanFracExp (cs : List Char) : Except String (List Char × List Char) :=
  match scanFrac cs with
  | .error e => .error e
  | .ok (f, r1) =>
    match scanExp r1 with
    | .error e => .error e
    | .ok (x, r2) => .ok (f ++ x, r2)

/-- Reads a number literal without sign: `0` or a digit string that does not
start with `0`, then the optional fraction and exponent. -/
def scanUnsigned (cs : List Char) : Except String (List Char × List Char) :=
  match cs with
  | [] => .error errEOF
  | c :: r =>
    if c = '0' then
      match scanFracExp r with
      | .error e => .error e
      | .ok (t, r1) => .ok (c :: t, r1)
    else if isDigit c then
      match scanFracExp (spanDigits r).2 with
      | .error e => .error e
      | .ok (t, r1) => .ok (c :: (spanDigits r).1 ++ t, r1)
    else .error "invalid character in numeric literal"

/-- Reads a number literal; returns its text and the remaining input. -/
def scanNumber (cs : List Char) : Except String (List Char × List Char) :=
  match cs with
  | [] => .error errEOF
  | c :: r =>
    if c = '-' then
      match scanUnsigned r with
      | .error e => .error e
      | .ok (t, r1) => .ok (c :: t, r1)
    else scanUnsigned (c :: r)

/-- Drops the literal `lit` from the front of the input, if it is there. -/
def dropLit : List Char → List Char → Option (List Char)
  | [], cs => some cs
  | _ :: _, [] => none
  | l :: ls, c :: cs => if l = c then dropLit ls cs else none

mutual
/-- Reads one JSON value.  `fuel` bounds the number of nested calls. -/
def parseValue : Nat → List Char → Except String (Json × List Char)
  | 0, _ => .error errDepth
  | fuel + 1, cs =>
    match skipWs cs with
    | [] => .error errEOF
    | c :: rest =>
      if c = lbrace then
        match skipWs rest with
        | [] => .error errEOF
        | c1 :: rest1 =>
          if c1 = rbrace then .ok (.obj [], rest1) else parseMembers fuel (c1 :: rest1) []
      else if c = lbracket then
        match skipWs rest with
        | [] => .error errEOF
        | c1 :: rest1 =>
          if c1 = rbracket then .ok (.arr [], rest1) else parseElems fuel (c1 :: rest1) []
      else if c = dquote then
        match scanString rest with
        | .error e => .error e
        | .ok (units, rest1) => .ok (.str (String.mk (decodeUnits units)), rest1)
      else if c = 't' then
        match dropLit ['r', 'u', 'e'] rest with
        | some rest1 => .ok (.bool true, rest1)
        | none => .error "invalid character in literal true"
      else if c = 'f' then
        match dropLit ['a', 'l', 's', 'e'] rest with
        | some rest1 => .ok (.bool false, rest1)
        | none => .error "invalid character in literal false"
      else if c = 'n' then
        match dropLit ['u', 'l', 'l'] rest with
        | some rest1 => .ok (.null, rest1)
        | none => .error "invalid character in literal null"
      else if c = '-' ∨ isDigit c then
        match scanNumber (c :: rest) with
        | .error e => .error e
        | .ok (t, rest1) => .ok (.num (String.mk t), rest1)
      else .error "invalid character looking for beginning of value"
/-- Reads the elements of an array up to the closing bracket. -/
def parseElems : Nat → List Char → List Json → Except String (Json × List Char)
  | 0, _, _ => .error errDepth
  | fuel + 1, cs, acc =>
    match parseValue fuel cs with
    | .error e => .error e
    | .ok (v, rest) =>
      match skipWs rest with
      | [] => .error errEOF
      | c :: rest1 =>
        if c = comma then parseElems fuel rest1 (acc ++ [v])
        else if c = rbracket then .ok (.arr (acc ++ [v]), rest1)
        else .error "invalid character after array element"
/-- Reads the members of an object up to the closing brace. -/
def parseMembers : Nat → List Char → List (String × Json) → Except String (Json × List Char)
  | 0, _, _ => .error errDepth
  | fuel + 1, cs, acc =>
    match skipWs cs with
    | [] => .error errEOF
    | c :: rest =>
      if c = dquote then
        match scanString rest with
        | .error e => .error e
        | .ok (units, rest1) =>
          match skipWs rest1 with
          | [] => .error errEOF
          | c1 :: rest2 =>
            if c1 = colon then
              match parseValue fuel rest2 with
              | .error e => .error e
              | .ok (v, rest3) =>
                match skipWs rest3 with
                | [] => .error errEOF
                | c2 :: rest4 =>
                  if c2 = comma then
                    parseMembers fuel rest4 (acc ++ [(String.mk (decodeUnits units), v)])
                  else if c2 = rbrace then
                    .ok (.obj (acc ++ [(String.mk (decodeUnits units), v)]), rest4)
                  else .error "invalid character after object key:value pair"
            else .error "invalid character after object key"
      else .error "invalid character looking for beginning of object key string"
end

/-- Reading a text as JSON: the whole text is one JSON value, surrounded by
optional whitespace. -/
def parseJson (text : String) : Except String Json :=
  match parseValue (2 * text.length + 2) text.data with
  | .error e => .error e
  | .ok (v, rest) =>
    match skipWs rest with
    | [] => .ok v
    | _ :: _ => .error "invalid character after top-level value"

/-! ## Encoding JSON text (`json.Marshal`) -/

def hexDigit (n : Nat) : Char :=
  if n < 10 then Char.ofNat (48 + n) else Char.ofNat (87 + n)

/-- How `json.Marshal` writes one character of a string: the quote and the
backslash are escaped with a backslash; line feed, carriage return and tab have
their short form; the other control characters and the characters `<`, `>`, `&`
are written as a `u00XX` escape; U+2028 and U+2029 are written as `u2028` and
`u2029` escapes; every other character stands for itself. -/
def escapeChar (c : Char) : List Char :=
  if c = dquote then [backslash, dquote]
  else if c = backslash then [backslash, backslash]
  else if c.toNat = 10 then [backslash, 'n']
  else if c.toNat = 13 then [backslash, 'r']
  else if c.toNat = 9 then [backslash, 't']
  else if c.toNat < 32 ∨ c = '<' ∨ c = '>' ∨ c = '&' then
    [backslash, 'u', '0', '0', hexDigit (c.toNat / 16), hexDigit (c.toNat % 16)]
  else if c.toNat = 0x2028 then [backslash, 'u', '2', '0', '2', '8']
  else if c.toNat = 0x2029 then [backslash, 'u', '2', '0', '2', '9']
  else [c]

def escapeChars : List Char → List Char
  | [] => []
  | c :: cs => escapeChar c ++ escapeChars cs

def renderString (s : String) : List Char :=
  dquote :: (escapeChars s.data ++ [dquote])

mutual
/-- The compact text of a JSON value. -/
def renderValue : Json → List Char
  | .null => ['n', 'u', 'l', 'l']
  | .bool true => ['t', 'r', 'u', 'e']
  | .bool false => ['f', 'a', 'l', 's', 'e']
  | .num t => t.data
  | .str s => renderString s
  | .arr [] => [lbracket, rbracket]
  | .arr (v :: vs) => lbracket :: (renderValue v ++ renderElems vs)
  | .obj [] => [lbrace, rbrace]
  | .obj ((k, v) :: ms) => lbrace :: (renderString k ++ colon :: (renderValue v ++ renderMembers ms))
/-- The elements after the first, each after a comma, and the closing bracket. -/
def renderElems : List Json → List Char
  | [] => [rbracket]
  | v :: vs => comma :: (renderValue v ++ renderElems vs)
/-- The members after the first, each after a comma, and the closing brace. -/
def renderMembers : List (String × Json) → List Char
  | [] => [rbrace]
  | (k, v) :: ms => comma :: (renderString k ++ colon :: (renderValue v ++ renderMembers ms))
end

def render (v : Json) : String := String.mk (renderValue v)


/-! ## Go maps with string keys and values -/

/-- A `map[string]string`: `none` is the nil map. -/
abbrev StringMap := Option (List (String × String))

/-- The built-in `len` of a map. -/
def StringMap.len : StringMap → Nat
  | none => 0
  | some l => l.length

/-- The value of the first entry with key `k`, if there is one. -/
def assocGet {β : Type} (k : String) : List (String × β) → Option β
  | [] => none
  | (k1, v1) :: rest => if k1 = k then some v1 else assocGet k rest

/-- Sets `k` to `v` in an association list: in place when `k` is there, else
as a new last entry. -/
def assocSet {β : Type} (k : String) (v : β) : List (String × β) → List (String × β)
  | [] => [(k, v)]
  | (k1, v1) :: rest => if k1 = k then (k, v) :: rest else (k1, v1) :: assocSet k v rest

/-- The lookup `m[k]` in its two-result form: `none` when the key is absent. -/
def StringMap.get? : StringMap → String → Option String
  | none, _ => none
  | some l, k => assocGet k l

/-! ## The reduced readers: typed decoding of the kept fields -/

/-- The name `encoding/json` gives the kind of a JSON value in a type error. -/
def Json.kindName : Json → String
  | .null => "null"
  | .bool _ => "bool"
  | .num _ => "number"
  | .str _ => "string"
  | .arr _ => "array"
  | .obj _ => "object"

def typeError (v : Json) (goType : String) : String :=
  "json: cannot unmarshal " ++ v.kindName ++ " into Go value of type " ++ goType

/-- Case folding of member names: ASCII letters to upper case, and the two
non-ASCII characters that fold to ASCII letters (U+017F to S, U+212A to K). -/
def foldChar (c : Char) : Char :=
  if 97 ≤ c.toNat ∧ c.toNat ≤ 122 then Char.ofNat (c.toNat - 32)
  else if c.toNat = 0x17F then 'S'
  else if c.toNat = 0x212A then 'K'
  else c

/-- A member named `key` is decoded into the struct field whose JSON name is
`field`: an exact match, or a match up to case folding. -/
def fieldMatches (field key : String) : Bool :=
  key.data.map foldChar = field.data.map foldChar

/-- Decoding into a `string`: `null` leaves the value as it is. -/
def decodeString (cur : String) : Json → Except String String
  | .str s => .ok s
  | .null => .ok cur
  | v => .error (typeError v "string")

/-- Decoding the members of an object into a `map[string]string`: a string sets
its key, `null` sets its key to the empty string, a later duplicate wins. -/
def decodeMapEntries :
    List (String × Json) → List (String × String) → Except String (List (String × String))
  | [], m => .ok m
  | (k, v) :: rest, m =>
    match decodeString "" v with
    | .error e => .error e
    | .ok s => decodeMapEntries rest (assocSet k s m)

/-- Decoding into a `map[string]string`: `null` makes the map nil, an object
adds its members to the map (allocating it when it is nil). -/
def decodeStringMap (cur : StringMap) : Json → Except String StringMap
  | .null => .ok none
  | .obj ms =>
    match decodeMapEntries ms (cur.getD []) with
    | .error e => .error e
    | .ok m => .ok (some m)
  | v => .error (typeError v "map[string]string")

/-- The object metadata (`metav1.ObjectMeta`), reduced to the field the program
reads. -/
structure ObjectMeta where
  Annotations : StringMap := none

/-- The type `objectWithMeta` of `main.go`: the embedded `ObjectMeta` is the
field named `metadata`. -/
structure objectWithMeta where
  ObjectMeta : ObjectMeta := {}

def decodeObjectMetaMembers : List (String × Json) → ObjectMeta → Except String ObjectMeta
  | [], m => .ok m
  | (k, v) :: rest, m =>
    if fieldMatches "annotations" k then
      match decodeStringMap m.Annotations v with
      | .error e => .error e
      | .ok a => decodeObjectMetaMembers rest { m with Annotations := a }
    else decodeObjectMetaMembers rest m

/-- Decoding into a struct: `null` leaves it as it is, an object sets the fields
its members name, anything else is a type error. -/
def decodeObjectMeta (cur : ObjectMeta) : Json → Except String ObjectMeta
  | .null => .ok cur
  | .obj ms => decodeObjectMetaMembers ms cur
  | v => .error (typeError v "v1.ObjectMeta")

def decodeObjectWithMetaMembers :
    List (String × Json) → objectWithMeta → Except String objectWithMeta
  | [], m => .ok m
  | (k, v) :: rest, m =>
    if fieldMatches "metadata" k then
      match decodeObjectMeta m.ObjectMeta v with
      | .error e => .error e
      | .ok om => decodeObjectWithMetaMembers rest { m with ObjectMeta := om }
    else decodeObjectWithMetaMembers rest m

def decodeObjectWithMeta (cur : objectWithMeta) : Json → Except String objectWithMeta
  | .null => .ok cur
  | .obj ms => decodeObjectWithMetaMembers ms cur
  | v => .error (typeError v "main.objectWithMeta")

/-- The reduced reader of an `objectWithMeta`: the text is read as JSON and the
annotations of its metadata are decoded; members of other fields are passed
over. -/
def jsonUnmarshalObjectWithMeta (raw : String) : Except String objectWithMeta :=
  match parseJson raw with
  | .error e => .error e
  | .ok v => decodeObjectWithMeta {} v

/-! ## The admission review envelope (`k8s.io/api/admission/v1`) -/

structure GroupVersionKind where
  Group : String := ""
  Version : String := ""
  Kind : String := ""

/-- The text logrus prints for a `GroupVersionKind` (its `String` method). -/
def GroupVersionKind.toString (gvk : GroupVersionKind) : String :=
  gvk.Group ++ "/" ++ gvk.Version ++ ", Kind=" ++ gvk.Kind

/-- A `runtime.RawExtension`: the JSON text of an embedded object. -/
structure RawExtension where
  Raw : String := ""

structure AdmissionRequest where
  UID : String := ""
  Kind : GroupVersionKind := {}
  Name : String := ""
  Namespace : String := ""
  Operation : String := ""
  Object : RawExtension := {}

/-- A `metav1.Status`, reduced to its message. -/
structure Status where
  Message : String := ""

def PatchTypeJSONPatch : String := "JSONPatch"

/-- An `AdmissionResponse`; the defaults are Go's zero values. -/
structure AdmissionResponse where
  UID : String := ""
  Allowed : Bool := false
  Result : Option Status := none
  Patch : String := ""
  PatchType : Option String := none

structure AdmissionReview where
  Kind : String := ""
  APIVersion : String := ""
  Request : Option AdmissionRequest := none
  Response : Option AdmissionResponse := none

def decodeGroupVersionKindMembers :
    List (String × Json) → GroupVersionKind → Except String GroupVersionKind
  | [], g => .ok g
  | (k, v) :: rest, g =>
    if fieldMatches "group" k then
      match decodeString g.Group v with
      | .error e => .error e
      | .ok s => decodeGroupVersionKindMembers rest { g with Group := s }
    else if fieldMatches "version" k then
      match decodeString g.Version v with
      | .error e => .error e
      | .ok s => decodeGroupVersionKindMembers rest { g with Version := s }
    else if fieldMatches "kind" k then
      match decodeString g.Kind v with
      | .error e => .error e
      | .ok s => decodeGroupVersionKindMembers rest { g with Kind := s }
    else decodeGroupVersionKindMembers rest g

def decodeGroupVersionKind (cur : GroupVersionKind) : Json → Except String GroupVersionKind
  | .null => .ok cur
  | .obj ms => decodeGroupVersionKindMembers ms cur
  | v => .error (typeError v "v1.GroupVersionKind")

/-- The method `RawExtension.UnmarshalJSON` in the reduced reader: `null`
leaves the value as it is, any other value is stored as its compact text.  (The
method keeps the member's bytes as they are; both texts decode to the same
value, `parseJson_render_of_parse`.) -/
def decodeRawExtension (cur : RawExtension) : Json → RawExtension
  | .null => cur
  | v => { Raw := render v }

def decodeAdmissionRequestMembers :
    List (String × Json) → AdmissionRequest → Except String AdmissionRequest
  | [], r => .ok r
  | (k, v) :: rest, r =>
    if fieldMatches "uid" k then
      match decodeString r.UID v with
      | .error e => .error e
      | .ok s => decodeAdmissionRequestMembers rest { r with UID := s }
    else if fieldMatches "kind" k then
      match decodeGroupVersionKind r.Kind v with
      | .error e => .error e
      | .ok g => decodeAdmissionRequestMembers rest { r with Kind := g }
    else if fieldMatches "name" k then
      match decodeString r.Name v with
      | .error e => .error e
      | .ok s => decodeAdmissionRequestMembers rest { r with Name := s }
    else if fieldMatches "namespace" k then
      match decodeString r.Namespace v with
      | .error e => .error e
      | .ok s => decodeAdmissionRequestMembers rest { r with Namespace := s }
    else if fieldMatches "operation" k then
      match decodeString r.Operation v with
      | .error e => .error e
      | .ok s => decodeAdmissionRequestMembers rest { r with Operation := s }
    else if fieldMatches "object" k then
      decodeAdmissionRequestMembers rest { r with Object := decodeRawExtension r.Object v }
    else decodeAdmissionRequestMembers rest r

/-- Decoding into the pointer field `Request`: `null` makes it nil, an object is
decoded into the struct it points to (allocated when it is nil). -/
def decodeAdmissionRequest (cur : Option AdmissionRequest) :
    Json → Except String (Option AdmissionRequest)
  | .null => .ok none
  | .obj ms =>
    match decodeAdmissionRequestMembers ms (cur.getD {}) with
    | .error e => .error e
    | .ok r => .ok (some r)
  | v => .error (typeError v "v1.AdmissionRequest")

/-- The members of the envelope.  The member `response` of an incoming envelope
is passed over like the members of the fields that are not kept. -/
def decodeAdmissionReviewMembers :
    List (String × Json) → AdmissionReview → Except String AdmissionReview
  | [], r => .ok r
  | (k, v) :: rest, r =>
    if fieldMatches "kind" k then
      match decodeString r.Kind v with
      | .error e => .error e
      | .ok s => decodeAdmissionReviewMembers rest { r with Kind := s }
    else if fieldMatches "apiVersion" k then
      match decodeString r.APIVersion v with
      | .error e => .error e
      | .ok s => decodeAdmissionReviewMembers rest { r with APIVersion := s }
    else if fieldMatches "request" k then
      match decodeAdmissionRequest r.Request v with
      | .error e => .error e
      | .ok q => decodeAdmissionReviewMembers rest { r with Request := q }
    else decodeAdmissionReviewMembers rest r

def decodeAdmissionReview (cur : AdmissionReview) : Json → Except String AdmissionReview
  | .null => .ok cur
  | .obj ms => decodeAdmissionReviewMembers ms cur
  | v => .error (typeError v "v1.AdmissionReview")

/-- The reduced reader of an envelope: the text is read as JSON and the kept
fields are decoded; members of other fields are passed over. -/
def jsonUnmarshalAdmissionReview (body : String) : Except String AdmissionReview :=
  match parseJson body with
  | .error e => .error e
  | .ok v => decodeAdmissionReview {} v

/-! ## Encoding Go values (`json.Marshal`) -/

/-! The patch types of `main.go` first, then the reduced writer of the envelope. -/

/-- Byte-wise order of strings (the order of their code points). -/
def ltChars : List Char → List Char → Bool
  | _, [] => false
  | [], _ :: _ => true
  | a :: as, b :: bs =>
    if a.toNat < b.toNat then true
    else if b.toNat < a.toNat then false
    else ltChars as bs

def insertSorted (e : String × String) : List (String × String) → List (String × String)
  | [] => [e]
  | x :: xs => if ltChars e.1.data x.1.data then e :: x :: xs else x :: insertSorted e xs

/-- The entries of a map in the order `json.Marshal` writes them: sorted by key. -/
def sortByKey (l : List (String × String)) : List (String × String) :=
  l.foldr insertSorted []

/-- A `map[string]string` as JSON: `null` for the nil map, else an object with
the keys in sorted order. -/
def StringMap.toJson : StringMap → Json
  | none => .null
  | some l => .obj ((sortByKey l).map (fun e => (e.1, Json.str e.2)))

/-- The type `jsonStringPatchOperation` of `main.go`. -/
structure jsonStringPatchOperation where
  Op : String
  Path : String
  Value : String

/-- The type `jsonMapPatchOperation` of `main.go`. -/
structure jsonMapPatchOperation where
  Op : String
  Path : String
  Value : StringMap

def jsonStringPatchOperation.toJson (p : jsonStringPatchOperation) : Json :=
  .obj [("op", .str p.Op), ("path", .str p.Path), ("value", .str p.Value)]

def jsonMapPatchOperation.toJson (p : jsonMapPatchOperation) : Json :=
  .obj [("op", .str p.Op), ("path", .str p.Path), ("value", p.Value.toJson)]

/-- The call `json.Marshal` on a `[]jsonStringPatchOperation`.  Marshalling
structs of strings has no failing case. -/
def jsonMarshalStringPatch (ops : List jsonStringPatchOperation) : Except String String :=
  .ok (render (.arr (ops.map jsonStringPatchOperation.toJson)))

/-- The call `json.Marshal` on a `[]jsonMapPatchOperation`.  Marshalling structs
of strings and maps of strings has no failing case. -/
def jsonMarshalMapPatch (ops : List jsonMapPatchOperation) : Except String String :=
  .ok (render (.arr (ops.map jsonMapPatchOperation.toJson)))

def base64Alphabet : List Char :=
  "ABCDEFGHIJKLMNOPQRSTUVWXYZabcdefghijklmnopqrstuvwxyz0123456789+/".data

def base64Char (n : Nat) : Char := base64Alphabet.getD n 'A'

/-- Standard base64 with padding, the form `json.Marshal` gives a `[]byte`. -/
def base64Encode : List Nat → List Char
  | [] => []
  | [a] => [base64Char (a / 4), base64Char (a % 4 * 16), '=', '=']
  | [a, b] =>
    [base64Char (a / 4), base64Char (a % 4 * 16 + b / 16), base64Char (b % 16 * 4), '=']
  | a :: b :: c :: rest =>
    base64Char (a / 4) :: base64Char (a % 4 * 16 + b / 16) ::
      base64Char (b % 16 * 4 + c / 64) :: base64Char (c % 64) :: base64Encode rest

def utf8Bytes (s : String) : List Nat :=
  s.data.flatMap (fun c => (String.utf8EncodeChar c).map UInt8.toNat)

/-- A member that is left out when its string is empty (`omitempty`). -/
def omitEmpty (name value : String) : List (String × Json) :=
  if value = "" then [] else [(name, Json.str value)]

def GroupVersionKind.toJson (g : GroupVersionKind) : Json :=
  .obj [("group", .str g.Group), ("version", .str g.Version), ("kind", .str g.Kind)]

/-- The method `RawExtension.MarshalJSON` as `json.Marshal` uses it: `null` for
no text, else the text itself, which must be valid JSON. -/
def RawExtension.toJson (re : RawExtension) : Except String Json :=
  if re.Raw = "" then .ok .null
  else
    match parseJson re.Raw with
    | .error e => .error ("json: error calling MarshalJSON for type runtime.RawExtension: " ++ e)
    | .ok v => .ok v

def AdmissionRequest.toJson (r : AdmissionRequest) : Except String Json :=
  match r.Object.toJson with
  | .error e => .error e
  | .ok o =>
    .ok (.obj ([("uid", .str r.UID), ("kind", r.Kind.toJson)] ++ omitEmpty "name" r.Name ++
      omitEmpty "namespace" r.Namespace ++ [("operation", .str r.Operation), ("object", o)]))

def Status.toJson (s : Status) : Json :=
  .obj ([("metadata", .obj [])] ++ omitEmpty "message" s.Message)

def AdmissionResponse.toJson (r : AdmissionResponse) : Json :=
  .obj ([("uid", .str r.UID), ("allowed", .bool r.Allowed)] ++
    (match r.Result with
     | some s => [("status", s.toJson)]
     | none => []) ++
    (if r.Patch = "" then [] else [("patch", .str (String.mk (base64Encode (utf8Bytes r.Patch))))]) ++
    (match r.PatchType with
     | some t => [("patchType", .str t)]
     | none => []))

/-- The reduced writer of an envelope: the members of the kept fields in the
order of the struct fields, nil pointers and empty strings left out.  The
program's bytes hold in addition the members of the fields that are not kept. -/
def jsonMarshalAdmissionReview (r : AdmissionReview) : Except String String :=
  let request : Except String (List (String × Json)) :=
    match r.Request with
    | none => .ok []
    | some q =>
      match q.toJson with
      | .error e => .error e
      | .ok j => .ok [("request", j)]
  match request with
  | .error e => .error e
  | .ok req =>
    .ok (render (.obj (omitEmpty "kind" r.Kind ++ omitEmpty "apiVersion" r.APIVersion ++ req ++
      (match r.Response with
       | some p => [("response", p.toJson)]
       | none => []))))

/-! ## Effects: log output, runtime faults, the HTTP exchange -/

/-- One entry written through logrus. -/
structure LogEntry where
  level : String
  fields : List (String × String)
  message : String

/-- How a call ends: it returns a value, or the goroutine panics. -/
inductive Outcome (α : Type) where
  | ok (value : α)
  | panic (msg : String)

/-- A call's log output and how it ended. -/
structure Run (α : Type) where
  log : List LogEntry
  outcome : Outcome α

def nilDereference : String :=
  "runtime error: invalid memory address or nil pointer dereference"

/-- What the handler reads of an `http.Request`: the result of reading the body
to its end, and the headers under their canonical names. -/
structure HttpRequest where
  Body : Except String String
  Header : List (String × List String)

/-- The method `Header.Get`: the first value of the header, or the empty
string. -/
def headerGet (h : List (String × List String)) (key : String) : String :=
  match assocGet key h with
  | some (v :: _) => v
  | _ => ""

/-- An `http.ResponseWriter`: the status line once it is written, the body
written so far, and the error the connection gives a write (if any). -/
structure ResponseWriter where
  status : Option Nat := none
  body : String := ""
  writeError : Option String := none

/-- The method `WriteHeader`: only the first status counts. -/
def ResponseWriter.WriteHeader (w : ResponseWriter) (code : Nat) : ResponseWriter :=
  match w.status with
  | some _ => w
  | none => { w with status := some code }

/-- The method `Write`: sends status 200 if no status was sent yet, then the
bytes; returns the connection's error. -/
def ResponseWriter.Write (w : ResponseWriter) (b : String) : ResponseWriter × Option String :=
  match w.writeError with
  | some e => (w.WriteHeader 200, some e)
  | none => ({ w.WriteHeader 200 with body := (w.WriteHeader 200).body ++ b }, none)

def StatusBadRequest : Nat := 400
def StatusInternalServerError : Nat := 500

/-! ## The program: `controller`, `getJsonPatch`, `mutate`, `webhook` -/

structure controller where
  port : Int := 0
  tlsSecret : String := ""
  ipAddress : String := ""

/-- The calls of the program into `encoding/json` on Kubernetes API types, as
parameters: `json.Unmarshal(raw, &objectMeta)` on a zero `objectWithMeta`,
`json.Unmarshal(body, &admissionReview)` on a zero `v1.AdmissionReview`, and
`json.Marshal(admissionReview)`.  Each returns its result or the error. -/
structure EncodingJson where
  UnmarshalObjectWithMeta : String → Except String objectWithMeta
  UnmarshalAdmissionReview : String → Except String AdmissionReview
  MarshalAdmissionReview : AdmissionReview → Except String String

/-- The reduced instance of the library calls: the readers and the writer of
the kept fields. -/
def referenceJson : EncodingJson :=
  { UnmarshalObjectWithMeta := jsonUnmarshalObjectWithMeta
    UnmarshalAdmissionReview := jsonUnmarshalAdmissionReview
    MarshalAdmissionReview := jsonMarshalAdmissionReview }

/-- The method `getJsonPatch`: the patch that adds the whole annotation map when
the object has no annotation, else the patch that adds one member to it. -/
def controller.getJsonPatch (c : controller) (objMeta : objectWithMeta) : Except String String :=
  if objMeta.ObjectMeta.Annotations.len = 0 then
    let mapPatch : List jsonMapPatchOperation :=
      [{ Op := "add"
         Path := "/metadata/annotations"
         Value := some [("external-dns.alpha.kubernetes.io/target", c.ipAddress)] }]
    jsonMarshalMapPatch mapPatch
  else
    let stringPatch : List jsonStringPatchOperation :=
      [{ Op := "add"
         Path := "/metadata/annotations/" ++ "external-dns.alpha.kubernetes.io~1target"
         Value := c.ipAddress }]
    jsonMarshalStringPatch stringPatch

/-- The method `mutate`.  The first statement reads `admissionReview.Request`,
so a nil request is a nil pointer dereference.  The call of `json.Unmarshal` on
the raw object is `lib.UnmarshalObjectWithMeta`. -/
def controller.mutate (c : controller) (lib : EncodingJson)
    (admissionReview : AdmissionReview) : Run AdmissionResponse :=
  match admissionReview.Request with
  | none => { log := [], outcome := .panic nilDereference }
  | some request =>
    let entry : LogEntry :=
      { level := "info"
        fields := [("kind", request.Kind.toString), ("name", request.Name),
          ("namespace", request.Namespace), ("operation", request.Operation)]
        message := "admission review" }
    let objectKind := request.Kind.Kind
    if objectKind ≠ "Ingress" ∧ objectKind ≠ "Gateway" then
      { log := [entry, { level := "info", fields := [("kind", objectKind)],
                         message := "not adding annotation to object" }]
        outcome := .ok { Allowed := true } }
    else
      match lib.UnmarshalObjectWithMeta request.Object.Raw with
      | .error err =>
        { log := [entry, { level := "error", fields := [("error", err)],
                           message := "error unmarshaling ingress" }]
          outcome := .ok { Result := some { Message := err } } }
      | .ok objectMeta =>
        match objectMeta.ObjectMeta.Annotations.get? "external-dns.alpha.kubernetes.io/target" with
        | some ip =>
          { log := [entry, { level := "info", fields := [("ip", ip)],
                             message := "not mutating object that already has annotation" }]
            outcome := .ok { Allowed := true } }
        | none =>
          match c.getJsonPatch objectMeta with
          | .error err =>
            { log := [entry], outcome := .ok { Result := some { Message := err } } }
          | .ok patchBytes =>
            let patchType := PatchTypeJSONPatch
            { log := [entry]
              outcome := .ok { Allowed := true
                               Patch := patchBytes
                               PatchType := some patchType
                               UID := request.UID } }

/-- The handler `webhook`, from the request to the final state of the response
writer.  The calls of `json.Unmarshal` on the body and of `json.Marshal` on the
envelope are `lib.UnmarshalAdmissionReview` and `lib.MarshalAdmissionReview`. -/
def controller.webhook (c : controller) (lib : EncodingJson) (w : ResponseWriter)
    (r : HttpRequest) : Run ResponseWriter :=
  let received : LogEntry := { level := "info", fields := [], message := "received request" }
  match r.Body with
  | .error err =>
    { log := [received, { level := "error", fields := [("error", err)],
                          message := "can't read request body" }]
      outcome := .ok (w.WriteHeader StatusBadRequest) }
  | .ok body =>
    let contentType := headerGet r.Header "Content-Type"
    if contentType ≠ "application/json" then
      { log := [received, { level := "error", fields := [("content type", contentType)],
                            message := "unexpected content type" }]
        outcome := .ok (w.WriteHeader StatusBadRequest) }
    else
      match lib.UnmarshalAdmissionReview body with
      | .error err =>
        { log := [received, { level := "error", fields := [("error", err)],
                              message := "unable to unmarshal admission review" }]
          outcome := .ok (w.WriteHeader StatusBadRequest) }
      | .ok admissionReview =>
        let mutated := c.mutate lib admissionReview
        match mutated.outcome with
        | .panic msg => { log := received :: mutated.log, outcome := .panic msg }
        | .ok admissionResponse =>
          match lib.MarshalAdmissionReview
              { admissionReview with Response := some admissionResponse } with
          | .error err =>
            { log := received :: mutated.log ++
                [{ level := "error", fields := [("error", err)],
                   message := "unable to marshal response" }]
              outcome := .ok (w.WriteHeader StatusInternalServerError) }
          | .ok response =>
            match w.Write response with
            | (w1, some err) =>
              { log := received :: mutated.log ++
                  [{ level := "error", fields := [("error", err)],
                     message := "error sending response" }]
                outcome := .ok (w1.WriteHeader StatusInternalServerError) }
            | (w1, none) => { log := received :: mutated.log, outcome := .ok w1 }

/-! ## JSON values whose text is read back unchanged -/

/-- The input ends here or goes on with a character that cannot continue a
number: not a digit, a point or an exponent mark. -/
def numStop : List Char → Bool
  | [] => true
  | c :: _ => !isDigit c && !decide (c = '.') && !decide (c = 'e') && !decide (c = 'E')

/-- The input ends here or goes on with a comma or a closing bracket or brace:
what follows a value in compact text. -/
def valueStop : List Char → Bool
  | [] => true
  | c :: _ => decide (c = comma) || decide (c = rbracket) || decide (c = rbrace)

/-- The text is one number literal, as the reader accepts it. -/
def numberOk (t : String) : Bool :=
  match scanNumber t.data with
  | .ok (t1, []) => decide (t1 = t.data)
  | _ => false

mutual
/-- A value whose numbers are number literals. -/
def Json.wf : Json → Bool
  | .null => true
  | .bool _ => true
  | .num t => numberOk t
  | .str _ => true
  | .arr vs => wfElems vs
  | .obj ms => wfMembers ms
def wfElems : List Json → Bool
  | [] => true
  | v :: vs => v.wf && wfElems vs
def wfMembers : List (String × Json) → Bool
  | [] => true
  | (_, v) :: ms => v.wf && wfMembers ms
end

mutual
/-- The number of nested calls the reader needs for a value. -/
def Json.weight : Json → Nat
  | .null => 1
  | .bool _ => 1
  | .num _ => 1
  | .str _ => 1
  | .arr vs => 1 + weightElems vs
  | .obj ms => 1 + weightMembers ms
def weightElems : List Json → Nat
  | [] => 0
  | v :: vs => 1 + v.weight + weightElems vs
def weightMembers : List (String × Json) → Nat
  | [] => 0
  | (_, v) :: ms => 1 + v.weight + weightMembers ms
end

/-- What a reader's result must satisfy on an input of length `n`: on success
the remaining input is shorter than the input; an error is not the
out-of-fuel error when the fuel was enough. -/
def Consumes {α : Type} (n : Nat) (enough : Prop) : Except String (α × List Char) → Prop
  | .ok p => p.2.length < n
  | .error e => enough → e ≠ errDepth

/-! ## JSON Patch (RFC 6902) as the API server applies it

Only `add` is modelled: it is the one operation the webhook emits. -/

/-- One operation of a JSON Patch document. -/
structure PatchOperation where
  op : String
  path : String
  value : Json

/-- Decoding one element of a patch document: an object with the members `op`
and `path` (strings) and `value`. -/
def decodePatchOperation : Json → Except String PatchOperation
  | .obj ms =>
    match assocGet "op" ms, assocGet "path" ms, assocGet "value" ms with
    | some (.str o), some (.str p), some v => .ok { op := o, path := p, value := v }
    | _, _, _ => .error "malformed patch operation"
  | _ => .error "a patch operation must be an object"

def decodePatchOperations : List Json → Except String (List PatchOperation)
  | [] => .ok []
  | j :: js =>
    match decodePatchOperation j with
    | .error e => .error e
    | .ok p =>
      match decodePatchOperations js with
      | .error e => .error e
      | .ok ps => .ok (p :: ps)

/-- Decoding the bytes of a patch: a JSON array of operations. -/
def decodePatch (text : String) : Except String (List PatchOperation) :=
  match parseJson text with
  | .error e => .error e
  | .ok (.arr items) => decodePatchOperations items
  | .ok _ => .error "a patch must be an array"

/-- Unescaping a reference token of a JSON Pointer (RFC 6901): `~1` is `/` and
`~0` is `~`. -/
def unescapeToken : List Char → List Char
  | [] => []
  | [c] => [c]
  | c :: d :: rest =>
    if c = '~' ∧ d = '1' then '/' :: unescapeToken rest
    else if c = '~' ∧ d = '0' then '~' :: unescapeToken rest
    else c :: unescapeToken (d :: rest)

/-- The text after the leading `/` of a pointer, cut at each `/`. -/
def splitTokens : List Char → List (List Char)
  | [] => [[]]
  | c :: cs =>
    if c = '/' then [] :: splitTokens cs
    else
      match splitTokens cs with
      | [] => [[c]]
      | t :: ts => (c :: t) :: ts

/-- The reference tokens of a JSON Pointer: none for the empty pointer (the
whole document); a pointer that is not empty starts with `/`. -/
def parsePointer (path : String) : Option (List String) :=
  match path.data with
  | [] => some []
  | c :: cs =>
    if c = '/' then some ((splitTokens cs).map (fun t => String.mk (unescapeToken t)))
    else none

/-- An array index of a pointer: decimal digits without a leading zero. -/
def parseIndex (t : String) : Option Nat :=
  match t.data with
  | [] => none
  | c :: cs =>
    if (c :: cs).all isDigit ∧ (c = '0' → cs = []) then
      some ((c :: cs).foldl (fun n d => 10 * n + (d.toNat - 48)) 0)
    else none

/-- The operation `add` at the location `tokens` of `doc`: at the root it
replaces the document; in an object it sets the member (replacing an existing
one); in an array it inserts before the index, or appends for `-`.  Every
container on the way to the location must exist. -/
def addAt : List String → Json → Json → Except String Json
  | [], value, _ => .ok value
  | t :: ts, value, doc =>
    match ts with
    | [] =>
      match doc with
      | .obj ms => .ok (.obj (assocSet t value ms))
      | .arr vs =>
        if t = "-" then .ok (.arr (vs ++ [value]))
        else
          match parseIndex t with
          | none => .error "add operation: invalid array index"
          | some i =>
            if i ≤ vs.length then .ok (.arr (vs.take i ++ value :: vs.drop i))
            else .error "add operation: index out of bounds"
      | _ => .error "add operation does not apply: the parent is not a container"
    | _ :: _ =>
      match doc with
      | .obj ms =>
        match assocGet t ms with
        | none => .error "add operation does not apply: doc is missing path"
        | some child =>
          match addAt ts value child with
          | .error e => .error e
          | .ok child1 => .ok (.obj (assocSet t child1 ms))
      | .arr vs =>
        match parseIndex t with
        | none => .error "add operation: invalid array index"
        | some i =>
          match vs.get? i with
          | none => .error "add operation does not apply: doc is missing path"
          | some child =>
            match addAt ts value child with
            | .error e => .error e
            | .ok child1 => .ok (.arr (vs.set i child1))
      | _ => .error "add operation does not apply: doc is missing path"

def applyOperation (p : PatchOperation) (doc : Json) : Except String Json :=
  if p.op = "add" then
    match parsePointer p.path with
    | none => .error "invalid JSON Pointer"
    | some tokens => addAt tokens p.value doc
  else .error "operation not modelled"

/-- Applying the operations of a patch in order. -/
def applyPatch : List PatchOperation → Json → Except String Json
  | [], doc => .ok doc
  | p :: ps, doc =>
    match applyOperation p doc with
    | .error e => .error e
    | .ok doc1 => applyPatch ps doc1

/-- The members of an object that are decoded into the field named `field`. -/
def membersFor (field : String) (ms : List (String × Json)) : List (String × Json) :=
  ms.filter (fun m => fieldMatches field m.1)

/-- A Kubernetes object as the API server serializes it, as far as the webhook
and the patch look at it: a JSON object with exactly one member that is decoded
as `metadata`, named so, whose value is an object with at most one member that
is decoded as `annotations`, named so.  (`encoding/json` decodes every member
whose name matches a field up to case, while a JSON Pointer addresses the
member with exactly that name; on a serialized object the two agree.) -/
def hasMetadataSection (doc : Json) : Bool :=
  match doc with
  | .obj ms =>
    match membersFor "metadata" ms with
    | [(k, .obj md)] =>
      k = "metadata" &&
        (match membersFor "annotations" md with
         | [] => true
         | [(k1, _)] => decide (k1 = "annotations")
         | _ => false)
    | _ => false
  | _ => false

/-- The library call reads the object `doc` from the payload `raw` as
`objMeta`: the payload is a text of the document, the annotations the document
holds are those of `objMeta`, and the call returns `objMeta`. -/
def EncodingJson.reads (lib : EncodingJson) (raw : String) (doc : Json)
    (objMeta : objectWithMeta) : Prop :=
  parseJson raw = .ok doc ∧ decodeObjectWithMeta {} doc = .ok objMeta ∧
    lib.UnmarshalObjectWithMeta raw = .ok objMeta

/-! ## Inputs of the test suite (`main_test.go`) -/

/-- The controller of the tests, with a fixed address for `expectedIp`. -/
def testController : controller := { ipAddress := "10.0.0.1" }

/-- The admission review the tests build: a request with a kind and a raw
object, here also with a uid. -/
def testReview (kind raw uid : String) : AdmissionReview :=
  { Request := some { UID := uid, Kind := { Kind := kind }, Object := { Raw := raw } } }

/-- The text `json.Marshal(networkingv1beta1.Ingress{})`. -/
def zeroIngressJson : String :=
  "\x7b\"metadata\":\x7b\"creationTimestamp\":null\x7d,\"spec\":\x7b\x7d,\"status\":\x7b\"loadBalancer\":\x7b\x7d\x7d\x7d"

/-- The text `json.Marshal(istioClientNetworkingv1beta1.Gateway{})`. -/
def zeroGatewayJson : String :=
  "\x7b\"metadata\":\x7b\"creationTimestamp\":null\x7d,\"spec\":\x7b\x7d\x7d"

/-- The text `json.Marshal(corev1.Pod{})`. -/
def zeroPodJson : String :=
  "\x7b\"metadata\":\x7b\"creationTimestamp\":null\x7d,\"spec\":\x7b\"containers\":null\x7d,\"status\":\x7b\x7d\x7d"

/-- The Ingress of `TestDontAnnotateIngressWithExistingTarget`, marshalled. -/
def targetedIngressJson : String :=
  "\x7b\"metadata\":\x7b\"creationTimestamp\":null,\"annotations\":\x7b\"external-dns.alpha.kubernetes.io/target\":\"foo\"\x7d\x7d,\"spec\":\x7b\x7d,\"status\":\x7b\"loadBalancer\":\x7b\x7d\x7d\x7d"

/-- An Ingress with one annotation other than the target. -/
def annotatedIngressJson : String :=
  "\x7b\"metadata\":\x7b\"name\":\"web\",\"annotations\":\x7b\"kubernetes.io/ingress.class\":\"nginx\"\x7d\x7d,\"spec\":\x7b\x7d\x7d"

/-- An HTTP request with a body and a `Content-Type` header. -/
def jsonRequest (contentType body : String) : HttpRequest :=
  { Body := .ok body, Header := [("Content-Type", [contentType])] }

/-- The document `annotatedIngressJson` is the text of. -/
def annotatedIngressDoc : Json :=
  .obj [("metadata", .obj [("name", .str "web"),
      ("annotations", .obj [("kubernetes.io/ingress.class", .str "nginx")])]),
    ("spec", .obj [])]

/-- An admission review envelope for a Pod, as the API server sends one. -/
def podEnvelopeJson : String :=
  "\x7b\"kind\":\"AdmissionReview\",\"apiVersion\":\"admission.k8s.io/v1\",\"request\":\x7b\"uid\":\"705ab4f5-6393-11e8-b7cc-42010a800002\",\"kind\":\x7b\"group\":\"\",\"version\":\"v1\",\"kind\":\"Pod\"\x7d,\"name\":\"web\",\"namespace\":\"default\",\"operation\":\"CREATE\",\"object\":\x7b\"metadata\":\x7b\"name\":\"web\"\x7d\x7d\x7d\x7d"

/-- An admission review envelope for an Ingress whose object is `null`. -/
def deniedEnvelopeJson : String :=
  "\x7b\"kind\":\"AdmissionReview\",\"apiVersion\":\"admission.k8s.io/v1\",\"request\":\x7b\"uid\":\"u1\",\"kind\":\x7b\"kind\":\"Ingress\"\x7d,\"object\":null\x7d\x7d"

/-- An Ingress whose annotations member is spelled `Annotations`. -/
def capitalizedIngressJson : String :=
  "\x7b\"metadata\":\x7b\"Annotations\":\x7b\"a\":\"b\"\x7d\x7d\x7d"

/-- The document `capitalizedIngressJson` is the text of. -/
def capitalizedIngressDoc : Json :=
  .obj [("metadata", .obj [("Annotations", .obj [("a", .str "b")])])]

/-- The document `annotatedIngressDoc` after the target annotation was added. -/
def patchedIngressDoc : Json :=
  .obj [("metadata", .obj [("name", .str "web"),
      ("annotations", .obj [("kubernetes.io/ingress.class", .str "nginx"),
        ("external-dns.alpha.kubernetes.io/target", .str "10.0.0.1")])]),
    ("spec", .obj [])]

/-- A text of `patchedIngressDoc`. -/
def patchedIngressJson : String :=
  "\x7b\"metadata\":\x7b\"name\":\"web\",\"annotations\":\x7b\"kubernetes.io/ingress.class\":\"nginx\",\"external-dns.alpha.kubernetes.io/target\":\"10.0.0.1\"\x7d\x7d,\"spec\":\x7b\x7d\x7d"

/-! # Theorems -/

/-! ## Reading back what `json.Marshal` writes -/

theorem toNat_valid (c : Char) : c.toNat < 0xD800 ∨ (0xDFFF < c.toNat ∧ c.toNat < 0x110000) := by
  have h := c.valid
  simpa [Char.toNat, UInt32.isValidChar, Nat.isValidChar] using h

theorem unitChar_toNat (c : Char) : unitChar c.toNat = c := by
  have h := toNat_valid c
  have hs : isSurrogate c.toNat = false := by
    simp only [isSurrogate, Bool.and_eq_false_imp, decide_eq_true_eq, decide_eq_false_iff_not]
    omega
  simp [unitChar, hs]

theorem decodeUnits_map_toNat (s : List Char) : decodeUnits (s.map Char.toNat) = s := by
  induction s with
  | nil => rfl
  | cons c cs ih =>
    cases cs with
    | nil => simp [decodeUnits, unitChar_toNat]
    | cons d ds =>
      have h := toNat_valid c
      have hc : ¬ (0xD800 ≤ c.toNat ∧ c.toNat < 0xDC00 ∧ 0xDC00 ≤ d.toNat ∧ d.toNat < 0xE000) := by
        omega
      simp only [List.map_cons] at ih ⊢
      rw [decodeUnits, if_neg hc, ih, unitChar_toNat]

theorem scanString_cons (c : Char) (rest : List Char) :
    scanString (c :: rest) =
      if c = dquote then .ok ([], rest)
      else if c = backslash then
        match rest with
        | [] => .error errEOF
        | e :: rest1 =>
          if e = 'u' then
            match rest1 with
            | a :: b :: x :: y :: rest2 =>
              match hex4 a b x y with
              | some n => consUnit n (scanString rest2)
              | none => .error "invalid character in \\u hexadecimal character escape"
            | _ => .error errEOF
          else
            match simpleEscape e with
            | some n => consUnit n (scanString rest1)
            | none => .error "invalid character in string escape code"
      else if c.toNat < 32 then .error "invalid character in string literal"
      else consUnit c.toNat (scanString rest) := by
  conv_lhs => unfold scanString

theorem scanString_simple (e : Char) (n : Nat) (tail : List Char) (hu : e ≠ 'u')
    (he : simpleEscape e = some n) :
    scanString (backslash :: e :: tail) = consUnit n (scanString tail) := by
  rw [scanString_cons, if_neg (by decide), if_pos rfl]
  simp only [if_neg hu, he]

theorem scanString_hex (a b x y : Char) (n : Nat) (tail : List Char)
    (h : hex4 a b x y = some n) :
    scanString (backslash :: 'u' :: a :: b :: x :: y :: tail) = consUnit n (scanString tail) := by
  rw [scanString_cons, if_neg (by decide), if_pos rfl]
  simp only [if_true, h]

theorem scanString_plain (c : Char) (tail : List Char) (h1 : c ≠ dquote) (h2 : c ≠ backslash)
    (h3 : ¬ c.toNat < 32) :
    scanString (c :: tail) = consUnit c.toNat (scanString tail) := by
  rw [scanString_cons, if_neg h1, if_neg h2, if_neg h3]

theorem hex4_low (n : Nat) (h : n < 64) :
    hex4 '0' '0' (hexDigit (n / 16)) (hexDigit (n % 16)) = some n := by
  interval_cases n <;> decide

/-- Reading one escaped character yields its code point. -/
theorem scanString_escapeChar (c : Char) (tail : List Char) :
    scanString (escapeChar c ++ tail) = consUnit c.toNat (scanString tail) := by
  unfold escapeChar
  split_ifs with h1 h2 h3 h4 h5 h6 h7 h8
  · subst h1; exact scanString_simple _ _ _ (by decide) (by decide)
  · subst h2; exact scanString_simple _ _ _ (by decide) (by decide)
  · rw [h3]; exact scanString_simple _ _ _ (by decide) (by decide)
  · rw [h4]; exact scanString_simple _ _ _ (by decide) (by decide)
  · rw [h5]; exact scanString_simple _ _ _ (by decide) (by decide)
  · refine scanString_hex _ _ _ _ _ _ (hex4_low _ ?_)
    rcases h6 with h | h | h | h
    · omega
    · subst h; decide
    · subst h; decide
    · subst h; decide
  · rw [h7]; exact scanString_hex _ _ _ _ _ _ (by decide)
  · rw [h8]; exact scanString_hex _ _ _ _ _ _ (by decide)
  · exact scanString_plain _ _ h1 h2 (fun h => h6 (Or.inl h))

/-- Reading an escaped string up to its closing quote yields its code points. -/
theorem scanString_escapeChars (s tail : List Char) :
    scanString (escapeChars s ++ dquote :: tail) = .ok (s.map Char.toNat, tail) := by
  induction s with
  | nil => simp [escapeChars, scanString_cons]
  | cons c cs ih =>
    rw [escapeChars, List.append_assoc, scanString_escapeChar, ih]
    rfl

theorem scanString_renderString (s : String) (tail : List Char) :
    ∃ body, renderString s ++ tail = dquote :: body ∧
      scanString body = .ok (s.data.map Char.toNat, tail) := by
  refine ⟨escapeChars s.data ++ dquote :: tail, ?_, scanString_escapeChars _ _⟩
  simp [renderString]

theorem parseValue_succ (fuel : Nat) (cs : List Char) :
    parseValue (fuel + 1) cs =
    match skipWs cs with
    | [] => .error errEOF
    | c :: rest =>
      if c = lbrace then
        match skipWs rest with
        | [] => .error errEOF
        | c1 :: rest1 =>
          if c1 = rbrace then .ok (.obj [], rest1) else parseMembers fuel (c1 :: rest1) []
      else if c = lbracket then
        match skipWs rest with
        | [] => .error errEOF
        | c1 :: rest1 =>
          if c1 = rbracket then .ok (.arr [], rest1) else parseElems fuel (c1 :: rest1) []
      else if c = dquote then
        match scanString rest with
        | .error e => .error e
        | .ok (units, rest1) => .ok (.str (String.mk (decodeUnits units)), rest1)
      else if c = 't' then
        match dropLit ['r', 'u', 'e'] rest with
        | some rest1 => .ok (.bool true, rest1)
        | none => .error "invalid character in literal true"
      else if c = 'f' then
        match dropLit ['a', 'l', 's', 'e'] rest with
        | some rest1 => .ok (.bool false, rest1)
        | none => .error "invalid character in literal false"
      else if c = 'n' then
        match dropLit ['u', 'l', 'l'] rest with
        | some rest1 => .ok (.null, rest1)
        | none => .error "invalid character in literal null"
      else if c = '-' ∨ isDigit c then
        match scanNumber (c :: rest) with
        | .error e => .error e
        | .ok (t, rest1) => .ok (.num (String.mk t), rest1)
      else .error "invalid character looking for beginning of value" := by
  conv_lhs => unfold parseValue

theorem parseElems_succ (fuel : Nat) (cs : List Char) (acc : List Json) :
    parseElems (fuel + 1) cs acc =
    match parseValue fuel cs with
    | .error e => .error e
    | .ok (v, rest) =>
      match skipWs rest with
      | [] => .error errEOF
      | c :: rest1 =>
        if c = comma then parseElems fuel rest1 (acc ++ [v])
        else if c = rbracket then .ok (.arr (acc ++ [v]), rest1)
        else .error "invalid character after array element" := by
  conv_lhs => unfold parseElems

theorem parseMembers_succ (fuel : Nat) (cs : List Char) (acc : List (String × Json)) :
    parseMembers (fuel + 1) cs acc =
    match skipWs cs with
    | [] => .error errEOF
    | c :: rest =>
      if c = dquote then
        match scanString rest with
        | .error e => .error e
        | .ok (units, rest1) =>
          match skipWs rest1 with
          | [] => .error errEOF
          | c1 :: rest2 =>
            if c1 = colon then
              match parseValue fuel rest2 with
              | .error e => .error e
              | .ok (v, rest3) =>
                match skipWs rest3 with
                | [] => .error errEOF
                | c2 :: rest4 =>
                  if c2 = comma then
                    parseMembers fuel rest4 (acc ++ [(String.mk (decodeUnits units), v)])
                  else if c2 = rbrace then
                    .ok (.obj (acc ++ [(String.mk (decodeUnits units), v)]), rest4)
                  else .error "invalid character after object key:value pair"
            else .error "invalid character after object key"
      else .error "invalid character looking for beginning of object key string" := by
  conv_lhs => unfold parseMembers

theorem skipWs_cons_of_not_space (c : Char) (cs : List Char) (h : isSpace c = false) :
    skipWs (c :: cs) = c :: cs := by
  simp [skipWs, h]


/-! ## Number literals are read back unchanged -/

theorem spanDigits_append (d tail : List Char) (hd : ∀ c ∈ d, isDigit c = true)
    (ht : ∀ c r, tail = c :: r → isDigit c = false) : spanDigits (d ++ tail) = (d, tail) := by
  induction d with
  | nil =>
    cases tail with
    | nil => rfl
    | cons c r => simp [spanDigits, ht c r rfl]
  | cons c cs ih =>
    have hc : isDigit c = true := hd c (List.mem_cons_self _ _)
    have ih1 := ih (fun x hx => hd x (List.mem_cons_of_mem _ hx))
    rw [List.cons_append, spanDigits, if_pos hc, ih1]

theorem spanDigits_spec (cs : List Char) :
    cs = (spanDigits cs).1 ++ (spanDigits cs).2 ∧ ∀ c ∈ (spanDigits cs).1, isDigit c = true := by
  induction cs with
  | nil => simp [spanDigits]
  | cons c cs ih =>
    simp only [spanDigits]
    split_ifs with h
    · refine ⟨?_, ?_⟩
      · simp only [List.cons_append]
        rw [← ih.1]
      · intro x hx
        rcases List.mem_cons.1 hx with hx | hx
        · rw [hx]; exact h
        · exact ih.2 x hx
    · simp

theorem numStop_not_digit {tail : List Char} (h : numStop tail = true) :
    ∀ c r, tail = c :: r → isDigit c = false := by
  intro c r hc
  subst hc
  simp only [numStop, Bool.and_eq_true, Bool.not_eq_true', decide_eq_false_iff_not] at h
  exact h.1.1.1

/-- Reading the fraction again in front of another continuation. -/
theorem scanFrac_rescan {cs f r1 : List Char} (h : scanFrac cs = .ok (f, r1)) :
    (f = [] ∨ ∃ ds, f = '.' :: ds) ∧
    ∀ tail, (∀ c r, tail = c :: r → isDigit c = false ∧ c ≠ '.') →
      scanFrac (f ++ tail) = .ok (f, tail) := by
  cases cs with
  | nil =>
    simp only [scanFrac, Except.ok.injEq, Prod.mk.injEq] at h
    obtain ⟨rfl, rfl⟩ := h
    refine ⟨Or.inl rfl, ?_⟩
    intro tail ht
    cases tail with
    | nil => rfl
    | cons c r => simp [scanFrac, (ht c r rfl).2]
  | cons c r =>
    simp only [scanFrac] at h
    split_ifs at h with hc
    · have hspec := spanDigits_spec r
      cases hsd : spanDigits r with
      | mk d r2 =>
        rw [hsd] at h hspec
        cases d with
        | nil => cases r2 <;> simp at h
        | cons x xs =>
          simp only [Except.ok.injEq, Prod.mk.injEq] at h
          obtain ⟨rfl, rfl⟩ := h
          subst hc
          refine ⟨Or.inr ⟨_, rfl⟩, ?_⟩
          intro tail ht
          have := spanDigits_append (x :: xs) tail hspec.2 (fun c r h => (ht c r h).1)
          simp only [List.cons_append] at this
          simp only [List.cons_append, scanFrac, if_true, this]
    · simp only [Except.ok.injEq, Prod.mk.injEq] at h
      obtain ⟨rfl, rfl⟩ := h
      refine ⟨Or.inl rfl, ?_⟩
      intro tail ht
      cases tail with
      | nil => rfl
      | cons c r => simp [scanFrac, (ht c r rfl).2]

/-- Reading the exponent again in front of another continuation. -/
theorem scanExp_rescan {cs x r2 : List Char} (h : scanExp cs = .ok (x, r2)) :
    (x = [] ∨ ∃ c xs, x = c :: xs ∧ (c = 'e' ∨ c = 'E')) ∧
    ∀ tail, (∀ c r, tail = c :: r → isDigit c = false ∧ c ≠ 'e' ∧ c ≠ 'E') →
      scanExp (x ++ tail) = .ok (x, tail) := by
  have hnone : ∀ tail : List Char, (∀ c r, tail = c :: r → isDigit c = false ∧ c ≠ 'e' ∧ c ≠ 'E') →
      scanExp tail = .ok ([], tail) := by
    intro tail ht
    cases tail with
    | nil => rfl
    | cons c r => simp [scanExp, (ht c r rfl).2.1, (ht c r rfl).2.2]
  cases cs with
  | nil =>
    simp only [scanExp, Except.ok.injEq, Prod.mk.injEq] at h
    obtain ⟨rfl, rfl⟩ := h
    exact ⟨Or.inl rfl, fun tail ht => hnone tail ht⟩
  | cons c r =>
    simp only [scanExp] at h
    split_ifs at h with hc
    · have hspec := spanDigits_spec (scanSign r).2
      cases hsd : spanDigits (scanSign r).2 with
      | mk d r3 =>
        rw [hsd] at h hspec
        cases d with
        | nil => cases r3 <;> simp at h
        | cons y ys =>
          simp only [Except.ok.injEq, Prod.mk.injEq] at h
          obtain ⟨rfl, rfl⟩ := h
          refine ⟨Or.inr ⟨c, _, rfl, hc⟩, ?_⟩
          intro tail ht
          have hsp := spanDigits_append (y :: ys) tail hspec.2 (fun c r h => (ht c r h).1)
          have hy : isDigit y = true := hspec.2 y (List.mem_cons_self _ _)
          -- the sign is read the same way in front of the digits
          have hsign : scanSign ((scanSign r).1 ++ (y :: ys ++ tail)) =
              ((scanSign r).1, y :: ys ++ tail) := by
            cases r with
            | nil =>
              have h1 : y ≠ '+' := by rintro rfl; exact absurd hy (by decide)
              have h2 : y ≠ '-' := by rintro rfl; exact absurd hy (by decide)
              simp [scanSign, h1, h2]
            | cons s r4 =>
              simp only [scanSign]
              split_ifs with hs
              · simp [scanSign, hs]
              · have h1 : y ≠ '+' := by rintro rfl; exact absurd hy (by decide)
                have h2 : y ≠ '-' := by rintro rfl; exact absurd hy (by decide)
                simp [scanSign, h1, h2]
          simp only [List.cons_append, List.append_assoc, scanExp, hc, if_true]
          simp only [List.cons_append] at hsign hsp
          rw [hsign]
          simp only [hsp]
    · simp only [Except.ok.injEq, Prod.mk.injEq] at h
      obtain ⟨rfl, rfl⟩ := h
      exact ⟨Or.inl rfl, fun tail ht => hnone tail ht⟩

theorem numStop_spec {tail : List Char} (h : numStop tail = true) :
    ∀ c r, tail = c :: r → isDigit c = false ∧ c ≠ '.' ∧ c ≠ 'e' ∧ c ≠ 'E' := by
  intro c r hc
  subst hc
  simp only [numStop, Bool.and_eq_true, Bool.not_eq_true', decide_eq_false_iff_not] at h
  exact ⟨h.1.1.1, h.1.1.2, h.1.2, h.2⟩

/-- Reading fraction and exponent again in front of another continuation. -/
theorem scanFracExp_rescan {cs t r : List Char} (h : scanFracExp cs = .ok (t, r)) :
    (t = [] ∨ ∃ c ts, t = c :: ts ∧ isDigit c = false) ∧
    ∀ tail, numStop tail = true → scanFracExp (t ++ tail) = .ok (t, tail) := by
  simp only [scanFracExp] at h
  cases hf : scanFrac cs with
  | error e => simp [hf] at h
  | ok p =>
    obtain ⟨f, r1⟩ := p
    simp only [hf] at h
    cases hx : scanExp r1 with
    | error e => simp [hx] at h
    | ok q =>
      obtain ⟨x, r2⟩ := q
      simp only [hx, Except.ok.injEq, Prod.mk.injEq] at h
      obtain ⟨rfl, rfl⟩ := h
      obtain ⟨hfh, hfr⟩ := scanFrac_rescan hf
      obtain ⟨hxh, hxr⟩ := scanExp_rescan hx
      have hxhead : ∀ tail, numStop tail = true →
          ∀ c r, x ++ tail = c :: r → isDigit c = false ∧ c ≠ '.' := by
        intro tail ht c r hc
        rcases hxh with rfl | ⟨c1, xs, rfl, hc1⟩
        · have := numStop_spec ht c r hc
          exact ⟨this.1, this.2.1⟩
        · simp only [List.cons_append, List.cons.injEq] at hc
          obtain ⟨rfl, -⟩ := hc
          rcases hc1 with rfl | rfl
          · exact ⟨by decide, by decide⟩
          · exact ⟨by decide, by decide⟩
      refine ⟨?_, ?_⟩
      · rcases hfh with rfl | ⟨ds, rfl⟩
        · rcases hxh with rfl | ⟨c1, xs, rfl, hc1⟩
          · exact Or.inl rfl
          · refine Or.inr ⟨c1, xs, rfl, ?_⟩
            rcases hc1 with rfl | rfl <;> decide
        · exact Or.inr ⟨'.', ds ++ x, rfl, by decide⟩
      · intro tail ht
        have h1 := hfr (x ++ tail) (hxhead tail ht)
        have h2 := hxr tail (fun c r hc => by
          have := numStop_spec ht c r hc
          exact ⟨this.1, this.2.2.1, this.2.2.2⟩)
        simp only [scanFracExp, List.append_assoc, h1, h2]

/-- Reading an unsigned number again in front of another continuation. -/
theorem scanUnsigned_rescan {cs t r : List Char} (h : scanUnsigned cs = .ok (t, r)) :
    (∃ c ts, t = c :: ts ∧ isDigit c = true) ∧
    ∀ tail, numStop tail = true → scanUnsigned (t ++ tail) = .ok (t, tail) := by
  cases cs with
  | nil => simp [scanUnsigned] at h
  | cons c r0 =>
    simp only [scanUnsigned] at h
    split_ifs at h with h0 hd
    · cases hx : scanFracExp r0 with
      | error e => simp [hx] at h
      | ok q =>
        obtain ⟨fx, r1⟩ := q
        simp only [hx, Except.ok.injEq, Prod.mk.injEq] at h
        obtain ⟨rfl, rfl⟩ := h
        obtain ⟨-, hre⟩ := scanFracExp_rescan hx
        subst h0
        refine ⟨⟨_, _, rfl, by decide⟩, ?_⟩
        intro tail ht
        simp only [List.cons_append, scanUnsigned, if_true, hre tail ht]
    · cases hx : scanFracExp (spanDigits r0).2 with
      | error e => simp [hx] at h
      | ok q =>
        obtain ⟨fx, r1⟩ := q
        simp only [hx, Except.ok.injEq, Prod.mk.injEq] at h
        obtain ⟨rfl, rfl⟩ := h
        obtain ⟨hhead, hre⟩ := scanFracExp_rescan hx
        refine ⟨⟨_, _, rfl, hd⟩, ?_⟩
        intro tail ht
        have hsp := spanDigits_append (spanDigits r0).1 (fx ++ tail) (spanDigits_spec r0).2
          (by
            intro c1 r2 hc1
            rcases hhead with rfl | ⟨c2, ts, rfl, hc2⟩
            · exact (numStop_spec ht c1 r2 hc1).1
            · simp only [List.cons_append, List.cons.injEq] at hc1
              obtain ⟨rfl, -⟩ := hc1
              exact hc2)
        simp only [List.cons_append, List.append_assoc, scanUnsigned, if_neg h0, hd, if_true,
          hsp, hre tail ht]

/-- Reading a number again in front of another continuation: the same text is
read, and the continuation is what remains. -/
theorem scanNumber_rescan {cs t r : List Char} (h : scanNumber cs = .ok (t, r)) :
    (∃ c ts, t = c :: ts ∧ (c = '-' ∨ isDigit c = true)) ∧
    ∀ tail, numStop tail = true → scanNumber (t ++ tail) = .ok (t, tail) := by
  cases cs with
  | nil => simp [scanNumber] at h
  | cons c r0 =>
    simp only [scanNumber] at h
    split_ifs at h with hm
    · cases hx : scanUnsigned r0 with
      | error e => simp [hx] at h
      | ok q =>
        obtain ⟨u, r1⟩ := q
        simp only [hx, Except.ok.injEq, Prod.mk.injEq] at h
        obtain ⟨rfl, rfl⟩ := h
        obtain ⟨-, hre⟩ := scanUnsigned_rescan hx
        refine ⟨⟨_, _, rfl, Or.inl hm⟩, ?_⟩
        intro tail ht
        simp only [List.cons_append, scanNumber, hm, if_true, hre tail ht]
    · obtain ⟨⟨d, ts, rfl, hd⟩, hre⟩ := scanUnsigned_rescan h
      refine ⟨⟨_, _, rfl, Or.inr hd⟩, ?_⟩
      intro tail ht
      have hdm : d ≠ '-' := by rintro rfl; exact absurd hd (by decide)
      have := hre tail ht
      simp only [List.cons_append] at this
      simp only [List.cons_append, scanNumber, if_neg hdm, this]
theorem numberOk_spec {t : String} (h : numberOk t = true) :
    scanNumber t.data = .ok (t.data, []) := by
  simp only [numberOk] at h
  split at h
  · rename_i t1 heq
    simp only [decide_eq_true_eq] at h
    rw [heq, h]
  · cases h

theorem valueStop_numStop {rest : List Char} (h : valueStop rest = true) :
    numStop rest = true := by
  cases rest with
  | nil => rfl
  | cons c r =>
    simp only [valueStop, Bool.or_eq_true, decide_eq_true_eq] at h
    rcases h with (rfl | rfl) | rfl <;> rfl

theorem valueStop_renderElems (vs : List Json) (rest : List Char) :
    valueStop (renderElems vs ++ rest) = true := by
  cases vs <;> rfl

theorem valueStop_renderMembers (ms : List (String × Json)) (rest : List Char) :
    valueStop (renderMembers ms ++ rest) = true := by
  rcases ms with _ | ⟨⟨k, v⟩, ms⟩ <;> rfl

theorem isDigit_toNat {c : Char} (h : isDigit c = true) : 48 ≤ c.toNat ∧ c.toNat ≤ 57 := by
  simpa [isDigit] using h

/-- The first character of a number literal is none of the characters the
reader tests before it tries a number. -/
theorem number_head_facts {c : Char} (h : c = '-' ∨ isDigit c = true) :
    isSpace c = false ∧ c ≠ rbracket ∧ c ≠ rbrace ∧ c ≠ lbrace ∧ c ≠ lbracket ∧ c ≠ dquote ∧
      c ≠ 't' ∧ c ≠ 'f' ∧ c ≠ 'n' := by
  rcases h with rfl | h
  · decide
  · have hd := isDigit_toNat h
    refine ⟨?_, ?_, ?_, ?_, ?_, ?_, ?_, ?_, ?_⟩
    · simp only [isSpace, Bool.or_eq_false_iff, decide_eq_false_iff_not]
      omega
    all_goals
      rintro rfl
      revert hd
      decide

theorem renderValue_head (v : Json) (h : v.wf = true) :
    ∃ c t, renderValue v = c :: t ∧ isSpace c = false ∧ c ≠ rbracket ∧ c ≠ rbrace := by
  cases v with
  | null => exact ⟨_, _, by rw [renderValue], by decide, by decide, by decide⟩
  | bool b =>
    cases b
    · exact ⟨_, _, by rw [renderValue], by decide, by decide, by decide⟩
    · exact ⟨_, _, by rw [renderValue], by decide, by decide, by decide⟩
  | num t =>
    obtain ⟨c, ts, hc, hd⟩ := (scanNumber_rescan (numberOk_spec h)).1
    refine ⟨c, ts, by rw [renderValue, hc], ?_, ?_, ?_⟩
    · exact (number_head_facts hd).1
    · exact (number_head_facts hd).2.1
    · exact (number_head_facts hd).2.2.1
  | str s => exact ⟨_, _, by rw [renderValue, renderString], by decide, by decide, by decide⟩
  | arr vs =>
    cases vs with
    | nil => exact ⟨_, _, by rw [renderValue], by decide, by decide, by decide⟩
    | cons a as => exact ⟨_, _, by rw [renderValue], by decide, by decide, by decide⟩
  | obj ms =>
    cases ms with
    | nil => exact ⟨_, _, by rw [renderValue], by decide, by decide, by decide⟩
    | cons a as =>
      obtain ⟨k, v⟩ := a
      exact ⟨_, _, by rw [renderValue], by decide, by decide, by decide⟩

theorem parseValue_string (fuel : Nat) (s : String) (rest : List Char) :
    parseValue (fuel + 1) (renderString s ++ rest) = .ok (.str s, rest) := by
  obtain ⟨body, hb, hs⟩ := scanString_renderString s rest
  rw [hb, parseValue_succ, skipWs_cons_of_not_space _ _ (by decide)]
  simp only [if_neg (show dquote ≠ lbrace by decide), if_neg (show dquote ≠ lbracket by decide),
    if_true, hs, decodeUnits_map_toNat]

theorem parse_render_aux (fuel : Nat) :
    (∀ v rest, v.wf = true → valueStop rest = true → v.weight ≤ fuel →
      parseValue fuel (renderValue v ++ rest) = .ok (v, rest)) ∧
    (∀ v vs rest acc, v.wf = true → wfElems vs = true → weightElems (v :: vs) ≤ fuel →
      parseElems fuel (renderValue v ++ (renderElems vs ++ rest)) acc =
        .ok (.arr (acc ++ v :: vs), rest)) ∧
    (∀ k v ms rest acc, v.wf = true → wfMembers ms = true →
      weightMembers ((k, v) :: ms) ≤ fuel →
      parseMembers fuel (renderString k ++ colon :: (renderValue v ++ (renderMembers ms ++ rest)))
        acc = .ok (.obj (acc ++ (k, v) :: ms), rest)) := by
  induction fuel with
  | zero =>
    refine ⟨?_, ?_, ?_⟩
    · intro v rest _ _ hw
      cases v <;> simp [Json.weight] at hw
    · intro v vs rest acc _ _ hw
      simp [weightElems] at hw
    · intro k v ms rest acc _ _ hw
      simp [weightMembers] at hw
  | succ f ih =>
    obtain ⟨ihV, ihE, ihM⟩ := ih
    refine ⟨?_, ?_, ?_⟩
    · intro v rest hp hstop hw
      cases v with
      | null =>
        rw [renderValue, parseValue_succ]
        rfl
      | bool b =>
        cases b
        · rw [renderValue, parseValue_succ]; rfl
        · rw [renderValue, parseValue_succ]; rfl
      | num t =>
        rw [Json.wf] at hp
        obtain ⟨⟨c, ts, hc, hd⟩, hre⟩ := scanNumber_rescan (numberOk_spec hp)
        have hf := number_head_facts hd
        have hscan := hre rest (valueStop_numStop hstop)
        rw [hc] at hscan
        have hcond : c = '-' ∨ isDigit c = true := hd
        rw [renderValue, hc, parseValue_succ]
        simp only [List.cons_append] at hscan ⊢
        rw [skipWs_cons_of_not_space _ _ hf.1]
        simp only [if_neg hf.2.2.2.1, if_neg hf.2.2.2.2.1, if_neg hf.2.2.2.2.2.1,
          if_neg hf.2.2.2.2.2.2.1, if_neg hf.2.2.2.2.2.2.2.1, if_neg hf.2.2.2.2.2.2.2.2,
          if_pos hcond, hscan]
        rw [← hc]
      | str s => rw [renderValue]; exact parseValue_string f s rest
      | arr vs =>
        cases vs with
        | nil => rw [renderValue, parseValue_succ]; rfl
        | cons a as =>
          rw [Json.wf, wfElems, Bool.and_eq_true] at hp
          rw [Json.weight] at hw
          obtain ⟨c, t, hc, hs, hb, -⟩ := renderValue_head a hp.1
          have key := ihE a as rest [] hp.1 hp.2 (by omega)
          rw [renderValue, parseValue_succ]
          simp only [List.cons_append, List.append_assoc]
          rw [skipWs_cons_of_not_space _ _ (by decide)]
          simp only [if_neg (show lbracket ≠ lbrace by decide), if_true]
          rw [hc] at key ⊢
          simp only [List.cons_append] at key ⊢
          rw [skipWs_cons_of_not_space _ _ hs]
          simp only [if_neg hb, key, List.nil_append]
      | obj ms =>
        cases ms with
        | nil => rw [renderValue, parseValue_succ]; rfl
        | cons a as =>
          obtain ⟨k, v⟩ := a
          rw [Json.wf, wfMembers, Bool.and_eq_true] at hp
          rw [Json.weight] at hw
          have key := ihM k v as rest [] hp.1 hp.2 (by omega)
          rw [renderValue, parseValue_succ]
          simp only [List.cons_append, List.append_assoc]
          rw [skipWs_cons_of_not_space _ _ (by decide)]
          simp only [if_true]
          rw [renderString] at key ⊢
          simp only [List.cons_append, List.append_assoc] at key ⊢
          rw [skipWs_cons_of_not_space _ _ (by decide)]
          simp only [List.nil_append] at key ⊢
          simp only [if_neg (show dquote ≠ rbrace by decide), key]
    · intro v vs rest acc hp hps hw
      rw [weightElems] at hw
      rw [parseElems_succ, ihV v _ hp (valueStop_renderElems vs rest) (by omega)]
      cases vs with
      | nil =>
        simp only [renderElems, List.cons_append, List.nil_append]
        rw [skipWs_cons_of_not_space _ _ (by decide)]
        simp only [if_neg (show rbracket ≠ comma by decide), if_true]
      | cons a as =>
        rw [wfElems, Bool.and_eq_true] at hps
        simp only [renderElems, List.cons_append, List.append_assoc]
        rw [skipWs_cons_of_not_space _ _ (by decide)]
        simp only [if_true]
        rw [ihE a as rest _ hps.1 hps.2 (by omega)]
        simp
    · intro k v ms rest acc hp hps hw
      rw [weightMembers] at hw
      obtain ⟨body, hb, hs⟩ := scanString_renderString k
        (colon :: (renderValue v ++ (renderMembers ms ++ rest)))
      rw [parseMembers_succ, hb, skipWs_cons_of_not_space _ _ (by decide)]
      simp only [if_true, hs]
      rw [skipWs_cons_of_not_space _ _ (by decide)]
      simp only [if_true, ihV v _ hp (valueStop_renderMembers ms rest) (by omega),
        decodeUnits_map_toNat]
      cases ms with
      | nil =>
        simp only [renderMembers, List.cons_append, List.nil_append]
        rw [skipWs_cons_of_not_space _ _ (by decide)]
        simp only [if_neg (show rbrace ≠ comma by decide), if_true]
      | cons a as =>
        obtain ⟨k1, v1⟩ := a
        rw [wfMembers, Bool.and_eq_true] at hps
        simp only [renderMembers, List.cons_append, List.append_assoc]
        rw [skipWs_cons_of_not_space _ _ (by decide)]
        simp only [if_true]
        rw [ihM k1 v1 as rest _ hps.1 hps.2 (by omega)]
        simp

theorem weight_le_length_aux (n : Nat) :
    (∀ v : Json, v.weight ≤ n → v.wf = true → v.weight ≤ (renderValue v).length) ∧
    (∀ vs : List Json, weightElems vs ≤ n → wfElems vs = true →
      weightElems vs < (renderElems vs).length) ∧
    (∀ ms : List (String × Json), weightMembers ms ≤ n → wfMembers ms = true →
      weightMembers ms < (renderMembers ms).length) := by
  induction n with
  | zero =>
    refine ⟨?_, ?_, ?_⟩
    · intro v hw
      cases v <;> simp [Json.weight] at hw
    · intro vs hw _
      cases vs with
      | nil => simp [weightElems, renderElems]
      | cons a as => simp [weightElems] at hw
    · intro ms hw _
      cases ms with
      | nil => simp [weightMembers, renderMembers]
      | cons a as => obtain ⟨k, v⟩ := a; simp [weightMembers] at hw
  | succ n ih =>
    obtain ⟨ihV, ihE, ihM⟩ := ih
    refine ⟨?_, ?_, ?_⟩
    · intro v hw hp
      cases v with
      | null => simp [Json.weight, renderValue]
      | bool b => cases b <;> simp [Json.weight, renderValue]
      | num t =>
        obtain ⟨c, ts, hc, -⟩ := (scanNumber_rescan (numberOk_spec hp)).1
        simp [Json.weight, renderValue, hc]
      | str s => simp [Json.weight, renderValue, renderString]
      | arr vs =>
        cases vs with
        | nil => simp [Json.weight, renderValue, weightElems]
        | cons a as =>
          rw [Json.wf, wfElems, Bool.and_eq_true] at hp
          rw [Json.weight, weightElems] at hw
          have h1 := ihV a (by omega) hp.1
          have h2 := ihE as (by omega) hp.2
          simp only [Json.weight, weightElems, renderValue, List.length_cons, List.length_append]
          omega
      | obj ms =>
        cases ms with
        | nil => simp [Json.weight, renderValue, weightMembers]
        | cons a as =>
          obtain ⟨k, v⟩ := a
          rw [Json.wf, wfMembers, Bool.and_eq_true] at hp
          rw [Json.weight, weightMembers] at hw
          have h1 := ihV v (by omega) hp.1
          have h2 := ihM as (by omega) hp.2
          simp only [Json.weight, weightMembers, renderValue, List.length_cons,
            List.length_append]
          omega
    · intro vs hw hp
      cases vs with
      | nil => simp [weightElems, renderElems]
      | cons a as =>
        rw [wfElems, Bool.and_eq_true] at hp
        rw [weightElems] at hw
        have h1 := ihV a (by omega) hp.1
        have h2 := ihE as (by omega) hp.2
        simp only [weightElems, renderElems, List.length_cons, List.length_append]
        omega
    · intro ms hw hp
      cases ms with
      | nil => simp [weightMembers, renderMembers]
      | cons a as =>
        obtain ⟨k, v⟩ := a
        rw [wfMembers, Bool.and_eq_true] at hp
        rw [weightMembers] at hw
        have h1 := ihV v (by omega) hp.1
        have h2 := ihM as (by omega) hp.2
        simp only [weightMembers, renderMembers, List.length_cons, List.length_append]
        omega

/-- Reading back: the compact text of a value decodes to that value. -/
theorem parseJson_render (v : Json) (h : v.wf = true) : parseJson (render v) = .ok v := by
  have hw := (weight_le_length_aux v.weight).1 v le_rfl h
  have hp := (parse_render_aux (2 * (render v).length + 2)).1 v [] h rfl
    (by simp only [render, String.length]; omega)
  rw [List.append_nil] at hp
  simp only [parseJson, show (render v).data = renderValue v from rfl, hp, skipWs]

/-! ## What the reader returns is read back unchanged -/

theorem wfElems_append (xs ys : List Json) :
    wfElems (xs ++ ys) = (wfElems xs && wfElems ys) := by
  induction xs with
  | nil => simp [wfElems]
  | cons x xs ih => simp [wfElems, ih, Bool.and_assoc]

theorem wfMembers_append (xs ys : List (String × Json)) :
    wfMembers (xs ++ ys) = (wfMembers xs && wfMembers ys) := by
  induction xs with
  | nil => simp [wfMembers]
  | cons x xs ih => obtain ⟨k, v⟩ := x; simp [wfMembers, ih, Bool.and_assoc]

theorem numberOk_of_scan {cs t r : List Char} (h : scanNumber cs = .ok (t, r)) :
    numberOk (String.mk t) = true := by
  have := (scanNumber_rescan h).2 [] rfl
  rw [List.append_nil] at this
  simp [numberOk, this]

theorem parse_wf_aux (f : Nat) :
    (∀ cs v rest, parseValue f cs = .ok (v, rest) → v.wf = true) ∧
    (∀ cs acc v rest, wfElems acc = true → parseElems f cs acc = .ok (v, rest) → v.wf = true) ∧
    (∀ cs acc v rest, wfMembers acc = true → parseMembers f cs acc = .ok (v, rest) →
      v.wf = true) := by
  induction f with
  | zero =>
    refine ⟨?_, ?_, ?_⟩
    · intro cs v rest h; simp [parseValue] at h
    · intro cs acc v rest _ h; simp [parseElems] at h
    · intro cs acc v rest _ h; simp [parseMembers] at h
  | succ f ih =>
    obtain ⟨ihV, ihE, ihM⟩ := ih
    refine ⟨?_, ?_, ?_⟩
    · intro cs v rest h
      rw [parseValue_succ] at h
      cases hws : skipWs cs with
      | nil => simp [hws] at h
      | cons c r =>
        simp only [hws] at h
        split_ifs at h
        · cases hws2 : skipWs r with
          | nil => simp [hws2] at h
          | cons c1 r1 =>
            simp only [hws2] at h
            split_ifs at h
            · simp only [Except.ok.injEq, Prod.mk.injEq] at h
              rw [← h.1]; rfl
            · exact ihM _ [] _ _ rfl h
        · cases hws2 : skipWs r with
          | nil => simp [hws2] at h
          | cons c1 r1 =>
            simp only [hws2] at h
            split_ifs at h
            · simp only [Except.ok.injEq, Prod.mk.injEq] at h
              rw [← h.1]; rfl
            · exact ihE _ [] _ _ rfl h
        · cases hx : scanString r with
          | error e => simp [hx] at h
          | ok p =>
            simp only [hx, Except.ok.injEq, Prod.mk.injEq] at h
            rw [← h.1]; rfl
        · cases hx : dropLit ['r', 'u', 'e'] r with
          | none => simp [hx] at h
          | some r1 =>
            simp only [hx, Except.ok.injEq, Prod.mk.injEq] at h
            rw [← h.1]; rfl
        · cases hx : dropLit ['a', 'l', 's', 'e'] r with
          | none => simp [hx] at h
          | some r1 =>
            simp only [hx, Except.ok.injEq, Prod.mk.injEq] at h
            rw [← h.1]; rfl
        · cases hx : dropLit ['u', 'l', 'l'] r with
          | none => simp [hx] at h
          | some r1 =>
            simp only [hx, Except.ok.injEq, Prod.mk.injEq] at h
            rw [← h.1]; rfl
        · cases hx : scanNumber (c :: r) with
          | error e => simp [hx] at h
          | ok p =>
            obtain ⟨t, r1⟩ := p
            simp only [hx, Except.ok.injEq, Prod.mk.injEq] at h
            rw [← h.1, Json.wf]
            exact numberOk_of_scan hx
    · intro cs acc v rest hacc h
      rw [parseElems_succ] at h
      cases hx : parseValue f cs with
      | error e => simp [hx] at h
      | ok p =>
        obtain ⟨v1, r1⟩ := p
        have hv1 := ihV _ _ _ hx
        simp only [hx] at h
        cases hws : skipWs r1 with
        | nil => simp [hws] at h
        | cons c r2 =>
          simp only [hws] at h
          have hacc1 : wfElems (acc ++ [v1]) = true := by
            simp [wfElems_append, hacc, wfElems, hv1]
          split_ifs at h
          · exact ihE _ _ _ _ hacc1 h
          · simp only [Except.ok.injEq, Prod.mk.injEq] at h
            rw [← h.1, Json.wf]
            exact hacc1
    · intro cs acc v rest hacc h
      rw [parseMembers_succ] at h
      cases hws : skipWs cs with
      | nil => simp [hws] at h
      | cons c r =>
        simp only [hws] at h
        split_ifs at h
        cases hx : scanString r with
        | error e => simp [hx] at h
        | ok p =>
          obtain ⟨units, r1⟩ := p
          simp only [hx] at h
          cases hws1 : skipWs r1 with
          | nil => simp [hws1] at h
          | cons c1 r2 =>
            simp only [hws1] at h
            split_ifs at h
            cases hy : parseValue f r2 with
            | error e => simp [hy] at h
            | ok q =>
              obtain ⟨v1, r3⟩ := q
              have hv1 := ihV _ _ _ hy
              simp only [hy] at h
              cases hws3 : skipWs r3 with
              | nil => simp [hws3] at h
              | cons c2 r4 =>
                simp only [hws3] at h
                have hacc1 : wfMembers (acc ++ [(String.mk (decodeUnits units), v1)]) = true := by
                  simp [wfMembers_append, hacc, wfMembers, hv1]
                split_ifs at h
                · exact ihM _ _ _ _ hacc1 h
                · simp only [Except.ok.injEq, Prod.mk.injEq] at h
                  rw [← h.1, Json.wf]
                  exact hacc1

/-- Every value the reader returns is well formed. -/
theorem parseJson_wf {text : String} {v : Json} (h : parseJson text = .ok v) : v.wf = true := by
  simp only [parseJson] at h
  cases hx : parseValue (2 * text.length + 2) text.data with
  | error e => simp [hx] at h
  | ok p =>
    obtain ⟨v1, rest⟩ := p
    simp only [hx] at h
    cases hws : skipWs rest with
    | nil =>
      simp only [hws, Except.ok.injEq] at h
      rw [← h]
      exact (parse_wf_aux _).1 _ _ _ hx
    | cons c r => simp [hws] at h

/-- The compact text of a decoded value decodes to the same value: storing a
raw extension as compact text loses nothing. -/
theorem parseJson_render_of_parse {text : String} {v : Json} (h : parseJson text = .ok v) :
    parseJson (render v) = .ok v :=
  parseJson_render v (parseJson_wf h)

/-! ## The fuel of `parseJson` is always enough -/

theorem skipWs_length_le (cs : List Char) : (skipWs cs).length ≤ cs.length := by
  induction cs with
  | nil => simp [skipWs]
  | cons c cs ih =>
    simp only [skipWs]
    split_ifs
    · exact Nat.le_succ_of_le ih
    · exact le_rfl

theorem skipWs_cons_length {cs : List Char} {c : Char} {rest : List Char}
    (h : skipWs cs = c :: rest) : rest.length < cs.length := by
  have := skipWs_length_le cs
  rw [h] at this
  simpa using this

theorem Consumes.mono {α : Type} {n m : Nat} {p q : Prop} {r : Except String (α × List Char)}
    (h : Consumes n p r) (hnm : n ≤ m) (hqp : q → p) : Consumes m q r := by
  cases r with
  | ok v => exact lt_of_lt_of_le h hnm
  | error e => exact fun hq => h (hqp hq)

theorem consumes_consUnit {n : Nat} {k : Nat} {r : Except String (List Nat × List Char)}
    (h : Consumes n True r) : Consumes n True (consUnit k r) := by
  cases r with
  | ok v => obtain ⟨u, rest⟩ := v; exact h
  | error e => exact h

theorem consumes_scanString_aux (n : Nat) :
    ∀ cs : List Char, cs.length ≤ n → Consumes (cs.length + 1) True (scanString cs) := by
  induction n with
  | zero =>
    intro cs hcs
    cases cs with
    | nil => rw [scanString]; exact fun _ => by decide
    | cons c cs => simp at hcs
  | succ n ih =>
    intro cs hcs
    cases cs with
    | nil => rw [scanString]; exact fun _ => by decide
    | cons c rest =>
      simp only [List.length_cons, Nat.add_le_add_iff_right] at hcs
      rw [scanString_cons]
      split_ifs with h1 h2 h3
      · show rest.length < rest.length + 1 + 1
        omega
      · cases rest with
        | nil => exact fun _ => by decide
        | cons e rest1 =>
          simp only []
          split_ifs with h4
          · split
            · rename_i a b x y rest2
              split
              · refine consumes_consUnit ((ih rest2 ?_).mono ?_ id)
                · simp only [List.length_cons] at hcs; omega
                · simp only [List.length_cons]; omega
              · exact fun _ => by decide
            · exact fun _ => by decide
          · split
            · refine consumes_consUnit ((ih rest1 ?_).mono ?_ id)
              · simp only [List.length_cons] at hcs; omega
              · simp only [List.length_cons]; omega
            · exact fun _ => by decide
      · exact fun _ => by decide
      · exact consumes_consUnit ((ih rest hcs).mono (by simp) id)

theorem consumes_scanString (cs : List Char) :
    Consumes (cs.length + 1) True (scanString cs) :=
  consumes_scanString_aux cs.length cs le_rfl

theorem spanDigits_length (cs : List Char) : (spanDigits cs).2.length ≤ cs.length := by
  induction cs with
  | nil => simp [spanDigits]
  | cons c cs ih =>
    simp only [spanDigits]
    split_ifs
    · exact Nat.le_succ_of_le ih
    · exact le_rfl

theorem spanDigits_snd_length {cs d r : List Char} (h : spanDigits cs = (d, r)) :
    r.length ≤ cs.length := by
  have := spanDigits_length cs
  rw [h] at this
  exact this

theorem consumes_scanFrac (cs : List Char) : Consumes (cs.length + 1) True (scanFrac cs) := by
  cases cs with
  | nil => exact Nat.lt_succ_self _
  | cons c r =>
    simp only [scanFrac]
    split_ifs
    · cases h : spanDigits r with
      | mk d r1 =>
        have hl := spanDigits_snd_length h
        cases d with
        | nil =>
          cases r1 with
          | nil => exact fun _ => by decide
          | cons x xs => exact fun _ => by decide
        | cons x xs =>
          show r1.length < (c :: r).length + 1
          simp only [List.length_cons]
          omega
    · exact Nat.lt_succ_self _

theorem scanSign_length (cs : List Char) : (scanSign cs).2.length ≤ cs.length := by
  cases cs with
  | nil => simp [scanSign]
  | cons s r =>
    simp only [scanSign]
    split_ifs
    · simp
    · exact le_rfl

theorem consumes_scanExp (cs : List Char) : Consumes (cs.length + 1) True (scanExp cs) := by
  cases cs with
  | nil => exact Nat.lt_succ_self _
  | cons c r =>
    simp only [scanExp]
    split_ifs
    · cases h : spanDigits (scanSign r).2 with
      | mk d r1 =>
        have hl := spanDigits_snd_length h
        have hs := scanSign_length r
        cases d with
        | nil =>
          cases r1 with
          | nil => exact fun _ => by decide
          | cons x xs => exact fun _ => by decide
        | cons x xs =>
          show r1.length < (c :: r).length + 1
          simp only [List.length_cons]
          omega
    · exact Nat.lt_succ_self _

theorem consumes_scanFracExp (cs : List Char) :
    Consumes (cs.length + 1) True (scanFracExp cs) := by
  have h1 := consumes_scanFrac cs
  simp only [scanFracExp]
  cases hf : scanFrac cs with
  | error e => rw [hf] at h1; exact h1
  | ok p =>
    obtain ⟨f, r1⟩ := p
    rw [hf] at h1
    have h2 := consumes_scanExp r1
    simp only []
    cases hx : scanExp r1 with
    | error e => rw [hx] at h2; exact h2
    | ok q =>
      obtain ⟨x, r2⟩ := q
      rw [hx] at h2
      have h1 : r1.length < cs.length + 1 := h1
      have h2 : r2.length < r1.length + 1 := h2
      show r2.length < cs.length + 1
      omega

theorem consumes_scanUnsigned (cs : List Char) :
    Consumes cs.length True (scanUnsigned cs) := by
  cases cs with
  | nil => exact fun _ => by decide
  | cons d r =>
    simp only [scanUnsigned]
    split_ifs
    · have h := consumes_scanFracExp r
      cases hx : scanFracExp r with
      | error e => rw [hx] at h; exact h
      | ok q =>
        obtain ⟨t, r1⟩ := q
        rw [hx] at h
        have h : r1.length < r.length + 1 := h
        show r1.length < (d :: r).length
        simp only [List.length_cons]
        omega
    · have h := consumes_scanFracExp (spanDigits r).2
      have hs := spanDigits_length r
      cases hx : scanFracExp (spanDigits r).2 with
      | error e => rw [hx] at h; exact h
      | ok q =>
        obtain ⟨t, r1⟩ := q
        rw [hx] at h
        have h : r1.length < (spanDigits r).2.length + 1 := h
        show r1.length < (d :: r).length
        simp only [List.length_cons]
        omega
    · exact fun _ => by decide

theorem consumes_scanNumber (c : Char) (rest : List Char) :
    Consumes (rest.length + 1) True (scanNumber (c :: rest)) := by
  simp only [scanNumber]
  split_ifs
  · have h := consumes_scanUnsigned rest
    cases hx : scanUnsigned rest with
    | error e => rw [hx] at h; exact h
    | ok q =>
      obtain ⟨t, r1⟩ := q
      rw [hx] at h
      have h : r1.length < rest.length := h
      show r1.length < rest.length + 1
      omega
  · have h := consumes_scanUnsigned (c :: rest)
    cases hx : scanUnsigned (c :: rest) with
    | error e => rw [hx] at h; exact h
    | ok q =>
      obtain ⟨t, r1⟩ := q
      rw [hx] at h
      exact h

theorem dropLit_length (lit cs rest : List Char) (h : dropLit lit cs = some rest) :
    rest.length ≤ cs.length := by
  induction lit generalizing cs with
  | nil => simp only [dropLit] at h; cases h; exact le_rfl
  | cons l ls ih =>
    cases cs with
    | nil => simp [dropLit] at h
    | cons c cs =>
      simp only [dropLit] at h
      split_ifs at h
      exact Nat.le_succ_of_le (ih cs h)

theorem consumes_of_lt {α : Type} {n : Nat} {p : Prop} {v : α} {rest : List Char}
    (h : rest.length < n) : Consumes n p (.ok (v, rest)) := h

theorem consumes_error {α : Type} {n : Nat} {p : Prop} {e : String} (h : e ≠ errDepth) :
    Consumes (α := α) n p (.error e) := fun _ => h

theorem parse_fuel_aux (f : Nat) :
    (∀ cs, Consumes cs.length (2 * cs.length + 1 ≤ f) (parseValue f cs)) ∧
    (∀ cs acc, Consumes cs.length (2 * cs.length + 2 ≤ f) (parseElems f cs acc)) ∧
    (∀ cs acc, Consumes cs.length (2 * cs.length + 2 ≤ f) (parseMembers f cs acc)) := by
  induction f with
  | zero =>
    refine ⟨?_, ?_, ?_⟩
    · intro cs
      rw [parseValue]
      exact fun h => absurd h (by omega)
    · intro cs acc
      rw [parseElems]
      exact fun h => absurd h (by omega)
    · intro cs acc
      rw [parseMembers]
      exact fun h => absurd h (by omega)
  | succ f ih =>
    obtain ⟨ihV, ihE, ihM⟩ := ih
    refine ⟨?_, ?_, ?_⟩
    · intro cs
      rw [parseValue_succ]
      cases hws : skipWs cs with
      | nil => exact consumes_error (by decide)
      | cons c rest =>
        have hlen := skipWs_cons_length hws
        simp only []
        split_ifs with h1 h2 h3 h4 h5 h6 h7
        · cases hws2 : skipWs rest with
          | nil => exact consumes_error (by decide)
          | cons c1 rest1 =>
            have hlen2 := skipWs_cons_length hws2
            simp only []
            split_ifs
            · exact consumes_of_lt (by omega)
            · refine (ihM (c1 :: rest1) []).mono ?_ ?_
              · simp only [List.length_cons]; omega
              · simp only [List.length_cons]; omega
        · cases hws2 : skipWs rest with
          | nil => exact consumes_error (by decide)
          | cons c1 rest1 =>
            have hlen2 := skipWs_cons_length hws2
            simp only []
            split_ifs
            · exact consumes_of_lt (by omega)
            · refine (ihE (c1 :: rest1) []).mono ?_ ?_
              · simp only [List.length_cons]; omega
              · simp only [List.length_cons]; omega
        · have hs := consumes_scanString rest
          cases hx : scanString rest with
          | error e => rw [hx] at hs; exact consumes_error (hs trivial)
          | ok p =>
            obtain ⟨units, rest1⟩ := p
            rw [hx] at hs
            have hs : rest1.length < rest.length + 1 := hs
            exact consumes_of_lt (by omega)
        · cases hx : dropLit ['r', 'u', 'e'] rest with
          | none => exact consumes_error (by decide)
          | some rest1 =>
            have := dropLit_length _ _ _ hx
            exact consumes_of_lt (by omega)
        · cases hx : dropLit ['a', 'l', 's', 'e'] rest with
          | none => exact consumes_error (by decide)
          | some rest1 =>
            have := dropLit_length _ _ _ hx
            exact consumes_of_lt (by omega)
        · cases hx : dropLit ['u', 'l', 'l'] rest with
          | none => exact consumes_error (by decide)
          | some rest1 =>
            have := dropLit_length _ _ _ hx
            exact consumes_of_lt (by omega)
        · have hs := consumes_scanNumber c rest
          cases hx : scanNumber (c :: rest) with
          | error e => rw [hx] at hs; exact consumes_error (hs trivial)
          | ok p =>
            obtain ⟨t, rest1⟩ := p
            rw [hx] at hs
            have hs : rest1.length < rest.length + 1 := hs
            exact consumes_of_lt (by omega)
        · exact consumes_error (by decide)
    · intro cs acc
      rw [parseElems_succ]
      have hv := ihV cs
      cases hx : parseValue f cs with
      | error e =>
        rw [hx] at hv
        exact fun h => hv (by omega)
      | ok p =>
        obtain ⟨v, rest⟩ := p
        rw [hx] at hv
        have hv : rest.length < cs.length := hv
        simp only []
        cases hws : skipWs rest with
        | nil => exact consumes_error (by decide)
        | cons c rest1 =>
          have hlen := skipWs_cons_length hws
          simp only []
          split_ifs
          · exact (ihE rest1 _).mono (by omega) (by omega)
          · exact consumes_of_lt (by omega)
          · exact consumes_error (by decide)
    · intro cs acc
      rw [parseMembers_succ]
      cases hws : skipWs cs with
      | nil => exact consumes_error (by decide)
      | cons c rest =>
        have hlen := skipWs_cons_length hws
        simp only []
        split_ifs
        · have hs := consumes_scanString rest
          cases hx : scanString rest with
          | error e => rw [hx] at hs; exact consumes_error (hs trivial)
          | ok p =>
            obtain ⟨units, rest1⟩ := p
            rw [hx] at hs
            have hs : rest1.length < rest.length + 1 := hs
            simp only []
            cases hws1 : skipWs rest1 with
            | nil => exact consumes_error (by decide)
            | cons c1 rest2 =>
              have hlen1 := skipWs_cons_length hws1
              simp only []
              split_ifs
              · have hv := ihV rest2
                cases hy : parseValue f rest2 with
                | error e =>
                  rw [hy] at hv
                  exact fun h => hv (by omega)
                | ok q =>
                  obtain ⟨v, rest3⟩ := q
                  rw [hy] at hv
                  have hv : rest3.length < rest2.length := hv
                  simp only []
                  cases hws3 : skipWs rest3 with
                  | nil => exact consumes_error (by decide)
                  | cons c2 rest4 =>
                    have hlen3 := skipWs_cons_length hws3
                    simp only []
                    split_ifs
                    · exact (ihM rest4 _).mono (by omega) (by omega)
                    · exact consumes_of_lt (by omega)
                    · exact consumes_error (by decide)
              · exact consumes_error (by decide)
        · exact consumes_error (by decide)

/-- The reader never runs out of fuel: whatever the text, `parseJson` does not
end with the out-of-fuel error. -/
theorem parseJson_fuel_enough (text : String) : parseJson text ≠ .error errDepth := by
  have h := (parse_fuel_aux (2 * text.length + 2)).1 text.data
  simp only [parseJson]
  cases hx : parseValue (2 * text.length + 2) text.data with
  | error e =>
    rw [hx] at h
    have he : e ≠ errDepth := h (by simp only [String.length]; omega)
    simpa using he
  | ok p =>
    obtain ⟨v, rest⟩ := p
    simp only []
    cases skipWs rest with
    | nil => simp
    | cons c cs => simp; decide

/-! ## The patch builder -/

theorem StringMap.get?_of_len_zero (m : StringMap) (k : String) (h : m.len = 0) :
    m.get? k = none := by
  cases m with
  | none => rfl
  | some l =>
    cases l with
    | nil => rfl
    | cons a as => simp [StringMap.len] at h

theorem getJsonPatch_of_len_zero (c : controller) (objMeta : objectWithMeta)
    (h : objMeta.ObjectMeta.Annotations.len = 0) :
    c.getJsonPatch objMeta = .ok (render (.arr [.obj [("op", .str "add"),
      ("path", .str "/metadata/annotations"),
      ("value", .obj [("external-dns.alpha.kubernetes.io/target", .str c.ipAddress)])]])) := by
  simp only [controller.getJsonPatch, h, if_true, jsonMarshalMapPatch, List.map_cons,
    List.map_nil, jsonMapPatchOperation.toJson, StringMap.toJson, sortByKey, List.foldr_cons,
    List.foldr_nil, insertSorted]

theorem getJsonPatch_of_len_pos (c : controller) (objMeta : objectWithMeta)
    (h : objMeta.ObjectMeta.Annotations.len ≠ 0) :
    c.getJsonPatch objMeta = .ok (render (.arr [.obj [("op", .str "add"),
      ("path", .str "/metadata/annotations/external-dns.alpha.kubernetes.io~1target"),
      ("value", .str c.ipAddress)]])) := by
  simp only [controller.getJsonPatch, h, if_false, jsonMarshalStringPatch, List.map_cons,
    List.map_nil, jsonStringPatchOperation.toJson]
  rfl

/-- The branch of `mutate` taken for a recognized kind whose object decodes and
lacks the target annotation. -/
theorem mutate_patch_branch (c : controller) (lib : EncodingJson) (review : AdmissionReview)
    (request : AdmissionRequest) (objMeta : objectWithMeta) (patchBytes : String)
    (hreq : review.Request = some request)
    (hkind : request.Kind.Kind = "Ingress" ∨ request.Kind.Kind = "Gateway")
    (hdec : lib.UnmarshalObjectWithMeta request.Object.Raw = .ok objMeta)
    (hget : objMeta.ObjectMeta.Annotations.get? "external-dns.alpha.kubernetes.io/target" = none)
    (hpatch : c.getJsonPatch objMeta = .ok patchBytes) :
    (c.mutate lib review).outcome =
      .ok { Allowed := true, Patch := patchBytes, PatchType := some PatchTypeJSONPatch,
            UID := request.UID } := by
  have hk : ¬ (request.Kind.Kind ≠ "Ingress" ∧ request.Kind.Kind ≠ "Gateway") := by
    rintro ⟨h1, h2⟩
    rcases hkind with h | h
    · exact h1 h
    · exact h2 h
  simp only [controller.mutate, hreq, hk, if_false, hdec, hget, hpatch]

/-! ## The claims -/

/-- C1: for a request whose kind is neither "Ingress" nor "Gateway" (compared
exactly, case included), whatever the raw object payload and whatever the
decoder makes of it, `mutate` returns a response with allowed = true, no patch
bytes and no patch type. -/
theorem mutate_other_kind_allows (c : controller) (lib : EncodingJson)
    (review : AdmissionReview) (request : AdmissionRequest)
    (hreq : review.Request = some request)
    (hI : request.Kind.Kind ≠ "Ingress") (hG : request.Kind.Kind ≠ "Gateway") :
    ∃ resp, (c.mutate lib review).outcome = .ok resp ∧ resp.Allowed = true ∧ resp.Patch = "" ∧
      resp.PatchType = none := by
  refine ⟨{ Allowed := true }, ?_, rfl, rfl, rfl⟩
  simp only [controller.mutate, hreq, if_pos (And.intro hI hG)]

/-- Witness for C1: the kind "ingress" (lower case) with a payload that is not
JSON. -/
theorem mutate_other_kind_allows_witness :
    (∃ err, referenceJson.UnmarshalObjectWithMeta "not json" = .error err) ∧
    ∃ resp, (testController.mutate referenceJson (testReview "ingress" "not json" "")).outcome
        = .ok resp ∧
      resp.Allowed = true ∧ resp.Patch = "" ∧ resp.PatchType = none :=
  ⟨⟨_, rfl⟩, mutate_other_kind_allows testController referenceJson
    (testReview "ingress" "not json" "")
    { Kind := { Kind := "ingress" }, Object := { Raw := "not json" } } rfl
    (by decide) (by decide)⟩

/-- C2: for a request of kind Ingress or Gateway whose object decodes and has
no annotation (the map is nil or empty), `mutate` returns allowed = true with
patch type JSONPatch, and the patch is the JSON text of an array of exactly one
operation: op "add", path "/metadata/annotations", and as value an object whose
one member is the target annotation key with the configured ipAddress.  The
text decodes back to that array. -/
theorem mutate_no_annotations_creates_mapping (c : controller) (lib : EncodingJson)
    (review : AdmissionReview) (request : AdmissionRequest) (objMeta : objectWithMeta)
    (hreq : review.Request = some request)
    (hkind : request.Kind.Kind = "Ingress" ∨ request.Kind.Kind = "Gateway")
    (hdec : lib.UnmarshalObjectWithMeta request.Object.Raw = .ok objMeta)
    (hlen : objMeta.ObjectMeta.Annotations.len = 0) :
    ∃ resp, (c.mutate lib review).outcome = .ok resp ∧ resp.Allowed = true ∧
      resp.PatchType = some "JSONPatch" ∧
      resp.Patch = render (.arr [.obj [("op", .str "add"), ("path", .str "/metadata/annotations"),
        ("value", .obj [("external-dns.alpha.kubernetes.io/target", .str c.ipAddress)])]]) ∧
      parseJson resp.Patch = .ok (.arr [.obj [("op", .str "add"),
        ("path", .str "/metadata/annotations"),
        ("value", .obj [("external-dns.alpha.kubernetes.io/target", .str c.ipAddress)])]]) := by
  refine ⟨_, mutate_patch_branch c lib review request objMeta _ hreq hkind hdec
    (StringMap.get?_of_len_zero _ _ hlen) (getJsonPatch_of_len_zero c objMeta hlen),
    rfl, rfl, rfl, ?_⟩
  exact parseJson_render _ rfl

/-- Witness for C2: an Ingress whose annotations member is the empty object;
an absent member and a `null` one decode to the nil map. -/
theorem mutate_no_annotations_creates_mapping_witness :
    referenceJson.UnmarshalObjectWithMeta "\x7b\"metadata\":\x7b\x7d\x7d" = .ok ⟨⟨none⟩⟩ ∧
    referenceJson.UnmarshalObjectWithMeta
        "\x7b\"metadata\":\x7b\"annotations\":null\x7d\x7d" = .ok ⟨⟨none⟩⟩ ∧
    referenceJson.UnmarshalObjectWithMeta
        "\x7b\"metadata\":\x7b\"annotations\":\x7b\x7d\x7d\x7d" = .ok ⟨⟨some []⟩⟩ ∧
    ∃ resp, (testController.mutate referenceJson (testReview "Ingress"
        "\x7b\"metadata\":\x7b\"annotations\":\x7b\x7d\x7d\x7d" "")).outcome = .ok resp ∧
      resp.Allowed = true ∧ resp.PatchType = some "JSONPatch" ∧
      resp.Patch = render (.arr [.obj [("op", .str "add"), ("path", .str "/metadata/annotations"),
        ("value", .obj [("external-dns.alpha.kubernetes.io/target",
          .str testController.ipAddress)])]]) ∧
      parseJson resp.Patch = .ok (.arr [.obj [("op", .str "add"),
        ("path", .str "/metadata/annotations"),
        ("value", .obj [("external-dns.alpha.kubernetes.io/target",
          .str testController.ipAddress)])]]) :=
  ⟨rfl, rfl, rfl, mutate_no_annotations_creates_mapping testController referenceJson
    (testReview "Ingress" "\x7b\"metadata\":\x7b\"annotations\":\x7b\x7d\x7d\x7d" "")
    { Kind := { Kind := "Ingress" },
      Object := { Raw := "\x7b\"metadata\":\x7b\"annotations\":\x7b\x7d\x7d\x7d" } }
    ⟨⟨some []⟩⟩ rfl (Or.inl rfl) rfl rfl⟩

/-- The patch of the witness as bytes. -/
theorem create_mapping_patch_text :
    render (.arr [.obj [("op", .str "add"), ("path", .str "/metadata/annotations"),
        ("value", .obj [("external-dns.alpha.kubernetes.io/target", .str "10.0.0.1")])]]) =
      "[\x7b\"op\":\"add\",\"path\":\"/metadata/annotations\",\"value\":\x7b\"external-dns.alpha.kubernetes.io/target\":\"10.0.0.1\"\x7d\x7d]" :=
  rfl

/-- C3: for a request of kind Ingress or Gateway whose object decodes to a
non-empty annotation map without the target key, `mutate` returns allowed =
true with patch type JSONPatch, and the patch is the JSON text of an array of
exactly one operation: op "add", path
"/metadata/annotations/external-dns.alpha.kubernetes.io~1target" (the JSON
Pointer with the key as its escaped last token), value the configured
ipAddress as a string.  The path is never "/metadata/annotations". -/
theorem mutate_other_annotations_adds_member (c : controller) (lib : EncodingJson)
    (review : AdmissionReview) (request : AdmissionRequest) (objMeta : objectWithMeta)
    (hreq : review.Request = some request)
    (hkind : request.Kind.Kind = "Ingress" ∨ request.Kind.Kind = "Gateway")
    (hdec : lib.UnmarshalObjectWithMeta request.Object.Raw = .ok objMeta)
    (hlen : objMeta.ObjectMeta.Annotations.len ≠ 0)
    (hget : objMeta.ObjectMeta.Annotations.get? "external-dns.alpha.kubernetes.io/target" = none) :
    ∃ resp, (c.mutate lib review).outcome = .ok resp ∧ resp.Allowed = true ∧
      resp.PatchType = some "JSONPatch" ∧
      resp.Patch = render (.arr [.obj [("op", .str "add"),
        ("path", .str "/metadata/annotations/external-dns.alpha.kubernetes.io~1target"),
        ("value", .str c.ipAddress)]]) ∧
      decodePatch resp.Patch = .ok [⟨"add",
        "/metadata/annotations/external-dns.alpha.kubernetes.io~1target", .str c.ipAddress⟩] ∧
      parsePointer "/metadata/annotations/external-dns.alpha.kubernetes.io~1target" =
        some ["metadata", "annotations", "external-dns.alpha.kubernetes.io/target"] ∧
      ∀ ops, decodePatch resp.Patch = .ok ops → ∀ p ∈ ops, p.path ≠ "/metadata/annotations" := by
  have hparse : decodePatch (render (.arr [.obj [("op", .str "add"),
        ("path", .str "/metadata/annotations/external-dns.alpha.kubernetes.io~1target"),
        ("value", .str c.ipAddress)]])) = .ok [⟨"add",
        "/metadata/annotations/external-dns.alpha.kubernetes.io~1target", .str c.ipAddress⟩] := by
    have hp := parseJson_render (.arr [.obj [("op", .str "add"),
        ("path", .str "/metadata/annotations/external-dns.alpha.kubernetes.io~1target"),
        ("value", .str c.ipAddress)]]) rfl
    simp only [decodePatch, hp]
    rfl
  refine ⟨_, mutate_patch_branch c lib review request objMeta _ hreq hkind hdec hget
    (getJsonPatch_of_len_pos c objMeta hlen), rfl, rfl, rfl, hparse, by decide, ?_⟩
  intro ops hops p hp
  rw [hparse] at hops
  cases hops
  simp only [List.mem_singleton] at hp
  subst hp
  show "/metadata/annotations/external-dns.alpha.kubernetes.io~1target" ≠ "/metadata/annotations"
  decide

/-- Witness for C3: an Ingress annotated with an ingress class only. -/
theorem mutate_other_annotations_adds_member_witness :
    referenceJson.UnmarshalObjectWithMeta annotatedIngressJson =
        .ok { ObjectMeta := { Annotations := some [("kubernetes.io/ingress.class", "nginx")] } } ∧
    ∃ resp, (testController.mutate referenceJson (testReview "Ingress" annotatedIngressJson "u1")).outcome
        = .ok resp ∧ resp.Allowed = true ∧ resp.PatchType = some "JSONPatch" ∧
      resp.Patch = render (.arr [.obj [("op", .str "add"),
        ("path", .str "/metadata/annotations/external-dns.alpha.kubernetes.io~1target"),
        ("value", .str testController.ipAddress)]]) ∧
      decodePatch resp.Patch = .ok [⟨"add",
        "/metadata/annotations/external-dns.alpha.kubernetes.io~1target",
        .str testController.ipAddress⟩] ∧
      parsePointer "/metadata/annotations/external-dns.alpha.kubernetes.io~1target" =
        some ["metadata", "annotations", "external-dns.alpha.kubernetes.io/target"] ∧
      ∀ ops, decodePatch resp.Patch = .ok ops → ∀ p ∈ ops, p.path ≠ "/metadata/annotations" :=
  ⟨rfl, mutate_other_annotations_adds_member testController referenceJson
    (testReview "Ingress" annotatedIngressJson "u1")
    { UID := "u1", Kind := { Kind := "Ingress" }, Object := { Raw := annotatedIngressJson } }
    { ObjectMeta := { Annotations := some [("kubernetes.io/ingress.class", "nginx")] } }
    rfl (Or.inl rfl) rfl (by decide) (by decide)⟩

/-- The branch of `mutate` taken for a recognized kind whose object already has
the target annotation. -/
theorem mutate_target_branch (c : controller) (lib : EncodingJson) (review : AdmissionReview)
    (request : AdmissionRequest) (objMeta : objectWithMeta) (current : String)
    (hreq : review.Request = some request)
    (hkind : request.Kind.Kind = "Ingress" ∨ request.Kind.Kind = "Gateway")
    (hdec : lib.UnmarshalObjectWithMeta request.Object.Raw = .ok objMeta)
    (hget : objMeta.ObjectMeta.Annotations.get? "external-dns.alpha.kubernetes.io/target"
      = some current) :
    (c.mutate lib review).outcome = .ok { Allowed := true } := by
  have hk : ¬ (request.Kind.Kind ≠ "Ingress" ∧ request.Kind.Kind ≠ "Gateway") := by
    rintro ⟨h1, h2⟩
    rcases hkind with h | h
    · exact h1 h
    · exact h2 h
  simp only [controller.mutate, hreq, hk, if_false, hdec, hget]

/-- C4: for a request of kind Ingress or Gateway whose object decodes to an
annotation map that contains the target key, whatever its value and whatever
else the map holds, `mutate` returns allowed = true with no patch bytes and no
patch type. -/
theorem mutate_existing_target_allows (c : controller) (lib : EncodingJson)
    (review : AdmissionReview) (request : AdmissionRequest) (objMeta : objectWithMeta)
    (current : String)
    (hreq : review.Request = some request)
    (hkind : request.Kind.Kind = "Ingress" ∨ request.Kind.Kind = "Gateway")
    (hdec : lib.UnmarshalObjectWithMeta request.Object.Raw = .ok objMeta)
    (hget : objMeta.ObjectMeta.Annotations.get? "external-dns.alpha.kubernetes.io/target"
      = some current) :
    ∃ resp, (c.mutate lib review).outcome = .ok resp ∧ resp.Allowed = true ∧ resp.Patch = "" ∧
      resp.PatchType = none :=
  ⟨{ Allowed := true }, mutate_target_branch c lib review request objMeta current hreq hkind hdec hget,
    rfl, rfl, rfl⟩

/-- Witness for C4: the Ingress of the test, whose target is "foo" while the
configured address is "10.0.0.1". -/
theorem mutate_existing_target_allows_witness :
    referenceJson.UnmarshalObjectWithMeta targetedIngressJson =
        .ok ⟨⟨some [("external-dns.alpha.kubernetes.io/target", "foo")]⟩⟩ ∧
    ∃ resp, (testController.mutate referenceJson (testReview "Ingress" targetedIngressJson "")).outcome
        = .ok resp ∧ resp.Allowed = true ∧ resp.Patch = "" ∧ resp.PatchType = none :=
  ⟨rfl, mutate_existing_target_allows testController referenceJson
    (testReview "Ingress" targetedIngressJson "")
    { Kind := { Kind := "Ingress" }, Object := { Raw := targetedIngressJson } }
    { ObjectMeta := { Annotations := some [("external-dns.alpha.kubernetes.io/target", "foo")] } }
    "foo" rfl (Or.inl rfl) rfl rfl⟩

/-- C5 fails on the code: for the serialized zero-value Ingress of
`TestAnnotateIngress` and the serialized zero-value Gateway of
`TestAnnotateGateway`, `mutate` returns allowed = true with patch type
JSONPatch, and the patch decodes to the one operation with op "add", path
"/metadata/annotations" and an object as value.  Its path is not
"/metadata/annotations/external-dns.alpha.kubernetes.io~1target" and its value
is not the string of the configured ipAddress, which is what the tests assert
of the first operation. -/
theorem mutate_zero_value_patch_is_whole_map :
    (∃ resp, (testController.mutate referenceJson
        (testReview "Ingress" zeroIngressJson "")).outcome = .ok resp ∧
      resp.Allowed = true ∧ resp.PatchType = some "JSONPatch" ∧
      decodePatch resp.Patch = .ok [⟨"add", "/metadata/annotations",
        .obj [("external-dns.alpha.kubernetes.io/target", .str testController.ipAddress)]⟩]) ∧
    (∃ resp, (testController.mutate referenceJson
        (testReview "Gateway" zeroGatewayJson "")).outcome = .ok resp ∧
      resp.Allowed = true ∧ resp.PatchType = some "JSONPatch" ∧
      decodePatch resp.Patch = .ok [⟨"add", "/metadata/annotations",
        .obj [("external-dns.alpha.kubernetes.io/target", .str testController.ipAddress)]⟩]) ∧
    ("/metadata/annotations" : String) ≠
      "/metadata/annotations/external-dns.alpha.kubernetes.io~1target" ∧
    Json.obj [("external-dns.alpha.kubernetes.io/target", .str testController.ipAddress)] ≠
      Json.str testController.ipAddress :=
  ⟨⟨_, rfl, rfl, rfl, rfl⟩, ⟨_, rfl, rfl, rfl, rfl⟩, by decide, fun h => by cases h⟩

/-- Marshalling the patch never fails. -/
theorem getJsonPatch_ok (c : controller) (objMeta : objectWithMeta) :
    ∃ patchBytes, c.getJsonPatch objMeta = .ok patchBytes := by
  by_cases h : objMeta.ObjectMeta.Annotations.len = 0
  · exact ⟨_, getJsonPatch_of_len_zero c objMeta h⟩
  · exact ⟨_, getJsonPatch_of_len_pos c objMeta h⟩

/-- C6: `mutate` returns a response with allowed = false exactly when the kind
is Ingress or Gateway and decoding the raw object fails; the result message is
then the decode error's text, and neither patch bytes nor a patch type is set.
The patch builder never returns an error, so the second denial branch of
`mutate` is never taken.  This holds whatever payloads the decoder rejects. -/
theorem mutate_denies_iff_decode_fails (c : controller) (lib : EncodingJson)
    (review : AdmissionReview) (request : AdmissionRequest)
    (hreq : review.Request = some request) :
    ∃ resp, (c.mutate lib review).outcome = .ok resp ∧
      (resp.Allowed = false ↔
        (request.Kind.Kind = "Ingress" ∨ request.Kind.Kind = "Gateway") ∧
          ∃ err, lib.UnmarshalObjectWithMeta request.Object.Raw = .error err) ∧
      (resp.Allowed = false →
        ∃ err, lib.UnmarshalObjectWithMeta request.Object.Raw = .error err ∧
          resp.Result = some { Message := err } ∧ resp.Patch = "" ∧ resp.PatchType = none) ∧
      (∀ objMeta, ∃ patchBytes, c.getJsonPatch objMeta = .ok patchBytes) := by
  by_cases hk : request.Kind.Kind ≠ "Ingress" ∧ request.Kind.Kind ≠ "Gateway"
  · refine ⟨{ Allowed := true }, ?_, ?_, ?_, getJsonPatch_ok c⟩
    · simp only [controller.mutate, hreq, if_pos hk]
    · constructor
      · intro h; cases h
      · rintro ⟨h | h, -⟩
        · exact absurd h hk.1
        · exact absurd h hk.2
    · intro h; cases h
  · have hkind : request.Kind.Kind = "Ingress" ∨ request.Kind.Kind = "Gateway" := by
      by_contra hcon
      exact hk ⟨fun h => hcon (Or.inl h), fun h => hcon (Or.inr h)⟩
    cases hdec : lib.UnmarshalObjectWithMeta request.Object.Raw with
    | error err =>
      refine ⟨{ Result := some { Message := err } }, ?_, ?_, ?_, getJsonPatch_ok c⟩
      · simp only [controller.mutate, hreq, hk, if_false, hdec]
      · exact ⟨fun _ => ⟨hkind, err, rfl⟩, fun _ => rfl⟩
      · exact fun _ => ⟨err, rfl, rfl, rfl, rfl⟩
    | ok objMeta =>
      cases hget : objMeta.ObjectMeta.Annotations.get? "external-dns.alpha.kubernetes.io/target" with
      | some ip =>
        refine ⟨{ Allowed := true }, ?_, ?_, ?_, getJsonPatch_ok c⟩
        · simp only [controller.mutate, hreq, hk, if_false, hdec, hget]
        · constructor
          · intro h; cases h
          · rintro ⟨-, err, herr⟩; cases herr
        · intro h; cases h
      | none =>
        obtain ⟨patchBytes, hpatch⟩ := getJsonPatch_ok c objMeta
        refine ⟨_, mutate_patch_branch c lib review request objMeta patchBytes hreq hkind hdec
          hget hpatch, ?_, ?_, getJsonPatch_ok c⟩
        · constructor
          · intro h; cases h
          · rintro ⟨-, err, herr⟩; cases herr
        · intro h; cases h

/-- Witness for C6: an Ingress request with an empty payload is denied with the
decoder's message. -/
theorem mutate_denies_iff_decode_fails_witness :
    referenceJson.UnmarshalObjectWithMeta "" = .error "unexpected end of JSON input" ∧
    ∃ resp, (testController.mutate referenceJson (testReview "Ingress" "" "")).outcome
        = .ok resp ∧
      (resp.Allowed = false ↔
        (("Ingress" : String) = "Ingress" ∨ ("Ingress" : String) = "Gateway") ∧
          ∃ err, referenceJson.UnmarshalObjectWithMeta "" = .error err) ∧
      (resp.Allowed = false →
        ∃ err, referenceJson.UnmarshalObjectWithMeta "" = .error err ∧
          resp.Result = some { Message := err } ∧ resp.Patch = "" ∧ resp.PatchType = none) ∧
      (∀ objMeta, ∃ patchBytes, testController.getJsonPatch objMeta = .ok patchBytes) :=
  ⟨rfl, mutate_denies_iff_decode_fails testController referenceJson (testReview "Ingress" "" "")
    { Kind := { Kind := "Ingress" }, Object := { Raw := "" } } rfl⟩

/-- C7 fails on the code: the response to a Pod request with a uid carries the
empty uid, not the request's; so does the response for an Ingress that already
has the target annotation, and the denial of an Ingress with an empty payload. -/
theorem mutate_drops_uid_without_patch :
    (∃ resp, (testController.mutate referenceJson
        (testReview "Pod" zeroPodJson "705ab4f5-6393-11e8-b7cc-42010a800002")).outcome = .ok resp ∧
      resp.Allowed = true ∧ resp.UID = "" ∧
      resp.UID ≠ "705ab4f5-6393-11e8-b7cc-42010a800002") ∧
    (∃ resp, (testController.mutate referenceJson
        (testReview "Ingress" targetedIngressJson
          "705ab4f5-6393-11e8-b7cc-42010a800002")).outcome = .ok resp ∧
      resp.Allowed = true ∧ resp.UID = "" ∧
      resp.UID ≠ "705ab4f5-6393-11e8-b7cc-42010a800002") ∧
    (∃ resp, (testController.mutate referenceJson
        (testReview "Ingress" "" "705ab4f5-6393-11e8-b7cc-42010a800002")).outcome = .ok resp ∧
      resp.Allowed = false ∧ resp.UID = "" ∧
      resp.UID ≠ "705ab4f5-6393-11e8-b7cc-42010a800002") :=
  ⟨⟨{ Allowed := true }, rfl, rfl, rfl, by decide⟩,
   ⟨{ Allowed := true }, rfl, rfl, rfl, by decide⟩,
   ⟨{ Result := some { Message := "unexpected end of JSON input" } }, rfl, rfl, rfl, by decide⟩⟩

/-- C8 fails on the code: the body `{}` with content type application/json
decodes to an envelope without a request, and the handler ends in a nil pointer
dereference inside `mutate` instead of a response. -/
theorem webhook_empty_envelope_panics :
    referenceJson.UnmarshalAdmissionReview "\x7b\x7d" = .ok {} ∧
    (testController.webhook referenceJson {} (jsonRequest "application/json" "\x7b\x7d")).outcome =
      .panic nilDereference :=
  ⟨rfl, rfl⟩

/-- C9: when the Content-Type header is not exactly "application/json", or the
body does not decode as an admission review envelope (whatever bodies the
decoder rejects), `webhook` answers with status 400 and writes no body; its log
is the entry "received request" followed by one error entry, so `mutate`, whose
first effect is the log entry "admission review", is not run. -/
theorem webhook_rejects_bad_transport (c : controller) (lib : EncodingJson)
    (w : ResponseWriter) (r : HttpRequest) (hw : w.status = none)
    (h : headerGet r.Header "Content-Type" ≠ "application/json" ∨
      ∀ body, r.Body = .ok body → ∃ err, lib.UnmarshalAdmissionReview body = .error err) :
    ∃ w1, (c.webhook lib w r).outcome = .ok w1 ∧ w1.status = some 400 ∧ w1.body = w.body ∧
      (∃ e, (c.webhook lib w r).log =
          [{ level := "info", fields := [], message := "received request" }, e] ∧
        e.level = "error") ∧
      ∀ e ∈ (c.webhook lib w r).log, e.message ≠ "admission review" := by
  have h400 : (w.WriteHeader StatusBadRequest).status = some 400 ∧
      (w.WriteHeader StatusBadRequest).body = w.body := by
    simp [ResponseWriter.WriteHeader, hw, StatusBadRequest]
  cases hbody : r.Body with
  | error err =>
    refine ⟨w.WriteHeader StatusBadRequest, ?_, h400.1, h400.2, ?_, ?_⟩
    · simp only [controller.webhook, hbody]
    · refine ⟨⟨"error", [("error", err)], "can't read request body"⟩, ?_, rfl⟩
      simp only [controller.webhook, hbody]
    · intro e he
      simp only [controller.webhook, hbody, List.mem_cons, List.mem_singleton,
        List.not_mem_nil, or_false] at he
      rcases he with he | he <;> subst he <;> simp
  | ok body =>
    by_cases hct : headerGet r.Header "Content-Type" ≠ "application/json"
    · refine ⟨w.WriteHeader StatusBadRequest, ?_, h400.1, h400.2, ?_, ?_⟩
      · simp only [controller.webhook, hbody, if_pos hct]
      · refine ⟨⟨"error", [("content type", headerGet r.Header "Content-Type")],
          "unexpected content type"⟩, ?_, rfl⟩
        simp only [controller.webhook, hbody, if_pos hct]
      · intro e he
        simp only [controller.webhook, hbody, if_pos hct, List.mem_cons, List.mem_singleton,
          List.not_mem_nil, or_false] at he
        rcases he with he | he <;> subst he <;> simp
    · have hdec : ∃ err, lib.UnmarshalAdmissionReview body = .error err := by
        rcases h with h | h
        · exact absurd h hct
        · exact h body hbody
      obtain ⟨err, herr⟩ := hdec
      refine ⟨w.WriteHeader StatusBadRequest, ?_, h400.1, h400.2, ?_, ?_⟩
      · simp only [controller.webhook, hbody, if_neg hct, herr]
      · refine ⟨⟨"error", [("error", err)], "unable to unmarshal admission review"⟩,
          ?_, rfl⟩
        simp only [controller.webhook, hbody, if_neg hct, herr]
      · intro e he
        simp only [controller.webhook, hbody, if_neg hct, herr, List.mem_cons,
          List.mem_singleton, List.not_mem_nil, or_false] at he
        rcases he with he | he <;> subst he <;> simp

/-- Witness for C9, one request for each way into the rejection: a well-formed
envelope sent as "application/json; charset=utf-8"; the same envelope sent
without a Content-Type header; and, sent as "application/json", a body that is
not JSON and a body whose `request` member is a number. -/
theorem webhook_rejects_bad_transport_witness :
    (∃ review, referenceJson.UnmarshalAdmissionReview podEnvelopeJson = .ok review) ∧
    (∃ w1, (testController.webhook referenceJson {}
        (jsonRequest "application/json; charset=utf-8" podEnvelopeJson)).outcome = .ok w1 ∧
      w1.status = some 400 ∧ w1.body = ({} : ResponseWriter).body ∧
      (∃ e, (testController.webhook referenceJson {}
          (jsonRequest "application/json; charset=utf-8" podEnvelopeJson)).log =
          [{ level := "info", fields := [], message := "received request" }, e] ∧
        e.level = "error") ∧
      ∀ e ∈ (testController.webhook referenceJson {}
        (jsonRequest "application/json; charset=utf-8" podEnvelopeJson)).log,
        e.message ≠ "admission review") ∧
    (∃ w1, (testController.webhook referenceJson {}
        { Body := .ok podEnvelopeJson, Header := [] }).outcome = .ok w1 ∧
      w1.status = some 400 ∧ w1.body = ({} : ResponseWriter).body ∧
      (∃ e, (testController.webhook referenceJson {}
          { Body := .ok podEnvelopeJson, Header := [] }).log =
          [{ level := "info", fields := [], message := "received request" }, e] ∧
        e.level = "error") ∧
      ∀ e ∈ (testController.webhook referenceJson {}
        { Body := .ok podEnvelopeJson, Header := [] }).log,
        e.message ≠ "admission review") ∧
    (∃ w1, (testController.webhook referenceJson {}
        (jsonRequest "application/json" "not json")).outcome = .ok w1 ∧
      w1.status = some 400 ∧ w1.body = ({} : ResponseWriter).body ∧
      (∃ e, (testController.webhook referenceJson {}
          (jsonRequest "application/json" "not json")).log =
          [{ level := "info", fields := [], message := "received request" }, e] ∧
        e.level = "error") ∧
      ∀ e ∈ (testController.webhook referenceJson {}
        (jsonRequest "application/json" "not json")).log,
        e.message ≠ "admission review") ∧
    (∃ w1, (testController.webhook referenceJson {}
        (jsonRequest "application/json" "\x7b\"request\":5\x7d")).outcome = .ok w1 ∧
      w1.status = some 400 ∧ w1.body = ({} : ResponseWriter).body ∧
      (∃ e, (testController.webhook referenceJson {}
          (jsonRequest "application/json" "\x7b\"request\":5\x7d")).log =
          [{ level := "info", fields := [], message := "received request" }, e] ∧
        e.level = "error") ∧
      ∀ e ∈ (testController.webhook referenceJson {}
        (jsonRequest "application/json" "\x7b\"request\":5\x7d")).log,
        e.message ≠ "admission review") :=
  ⟨⟨_, rfl⟩,
    webhook_rejects_bad_transport testController referenceJson {}
      (jsonRequest "application/json; charset=utf-8" podEnvelopeJson) rfl (Or.inl (by decide)),
    webhook_rejects_bad_transport testController referenceJson {}
      { Body := .ok podEnvelopeJson, Header := [] } rfl (Or.inl (by decide)),
    webhook_rejects_bad_transport testController referenceJson {}
      (jsonRequest "application/json" "not json") rfl
      (Or.inr (fun body hb => by cases hb; exact ⟨_, rfl⟩)),
    webhook_rejects_bad_transport testController referenceJson {}
      (jsonRequest "application/json" "\x7b\"request\":5\x7d") rfl
      (Or.inr (fun body hb => by cases hb; exact ⟨_, rfl⟩))⟩

/-! ## Applying the patch -/

theorem assocGet_assocSet {β : Type} (t k : String) (v : β) (m : List (String × β)) :
    assocGet t (assocSet k v m) = if k = t then some v else assocGet t m := by
  induction m with
  | nil => simp [assocSet, assocGet]
  | cons a as ih =>
    obtain ⟨k1, v1⟩ := a
    by_cases h1 : k1 = k
    · by_cases h2 : k = t
      · simp [assocSet, assocGet, h1, h2]
      · simp [assocSet, assocGet, h1, h2]
    · by_cases h2 : k = t
      · subst h2
        simp only [if_true] at ih
        simp [assocSet, assocGet, h1, ih]
      · simp [assocSet, assocGet, h1, h2, ih]

theorem assocSet_of_absent {β : Type} (t : String) (v : β) (m : List (String × β))
    (h : ∀ e ∈ m, e.1 ≠ t) : assocSet t v m = m ++ [(t, v)] := by
  induction m with
  | nil => rfl
  | cons a as ih =>
    obtain ⟨k1, v1⟩ := a
    have h1 : k1 ≠ t := h (k1, v1) (List.mem_cons_self _ _)
    simp [assocSet, h1, ih (fun e he => h e (List.mem_cons_of_mem _ he))]

theorem assocGet_none_iff {β : Type} (t : String) (m : List (String × β)) :
    assocGet t m = none ↔ ∀ e ∈ m, e.1 ≠ t := by
  induction m with
  | nil => simp [assocGet]
  | cons a as ih =>
    obtain ⟨k1, v1⟩ := a
    by_cases h1 : k1 = t
    · simp [assocGet, h1]
    · simp [assocGet, h1, ih]

theorem assocGet_append_new {β : Type} (t : String) (v : β) (m : List (String × β))
    (h : assocGet t m = none) : assocGet t (m ++ [(t, v)]) = some v := by
  induction m with
  | nil => simp [assocGet]
  | cons a as ih =>
    obtain ⟨k1, v1⟩ := a
    by_cases h1 : k1 = t
    · simp [assocGet, h1] at h
    · simp only [assocGet, h1, if_false] at h
      simp [assocGet, h1, ih h]

theorem decodeMapEntries_append (es fs : List (String × Json)) (m a : List (String × String))
    (h : decodeMapEntries es m = .ok a) :
    decodeMapEntries (es ++ fs) m = decodeMapEntries fs a := by
  induction es generalizing m with
  | nil =>
    simp only [decodeMapEntries] at h
    cases h
    rfl
  | cons e es ih =>
    obtain ⟨k, v⟩ := e
    simp only [decodeMapEntries, List.cons_append] at h ⊢
    cases hs : decodeString "" v with
    | error err => simp [hs] at h
    | ok s =>
      simp only [hs] at h ⊢
      exact ih _ h

theorem decodeMapEntries_keeps (es : List (String × Json)) (m a : List (String × String))
    (t : String) (h : decodeMapEntries es m = .ok a) (ht : assocGet t a = none) :
    assocGet t m = none ∧ ∀ e ∈ es, e.1 ≠ t := by
  induction es generalizing m with
  | nil =>
    simp only [decodeMapEntries] at h
    cases h
    exact ⟨ht, by simp⟩
  | cons e es ih =>
    obtain ⟨k, v⟩ := e
    simp only [decodeMapEntries] at h
    cases hs : decodeString "" v with
    | error err => simp [hs] at h
    | ok s =>
      simp only [hs] at h
      obtain ⟨h1, h2⟩ := ih _ h
      rw [assocGet_assocSet] at h1
      by_cases hk : k = t
      · simp [hk] at h1
      · simp only [hk, if_false] at h1
        refine ⟨h1, ?_⟩
        intro e he
        rcases List.mem_cons.1 he with he | he
        · subst he; exact hk
        · exact h2 e he

theorem fieldMatches_self (f : String) : fieldMatches f f = true := by
  simp [fieldMatches]

theorem assocGet_of_membersFor {f : String} {ms : List (String × Json)} {v : Json}
    (h : membersFor f ms = [(f, v)]) : assocGet f ms = some v := by
  induction ms with
  | nil => simp [membersFor] at h
  | cons a as ih =>
    obtain ⟨k1, v1⟩ := a
    by_cases hm : fieldMatches f k1 = true
    · simp only [membersFor, List.filter_cons, hm, if_true, List.cons.injEq, Prod.mk.injEq] at h
      obtain ⟨⟨hk, hv⟩, -⟩ := h
      simp [assocGet, hk, hv]
    · have hne : k1 ≠ f := by
        intro hk
        rw [hk, fieldMatches_self] at hm
        exact hm rfl
      simp only [membersFor, List.filter_cons, hm] at h
      simp only [assocGet, hne, if_false]
      exact ih h

theorem membersFor_assocSet_of_nil {f : String} {ms : List (String × Json)} (v1 : Json)
    (h : membersFor f ms = []) : membersFor f (assocSet f v1 ms) = [(f, v1)] := by
  induction ms with
  | nil => simp [membersFor, assocSet, fieldMatches_self]
  | cons a as ih =>
    obtain ⟨k1, w⟩ := a
    by_cases hm : fieldMatches f k1 = true
    · simp [membersFor, List.filter_cons, hm] at h
    · have hne : k1 ≠ f := by
        intro hk
        rw [hk, fieldMatches_self] at hm
        exact hm rfl
      simp only [membersFor, List.filter_cons, hm] at h
      simp only [assocSet, hne, if_false, membersFor, List.filter_cons, hm]
      exact ih h

theorem membersFor_assocSet_of_single {f : String} {ms : List (String × Json)} {v : Json}
    (v1 : Json) (h : membersFor f ms = [(f, v)]) :
    membersFor f (assocSet f v1 ms) = [(f, v1)] := by
  induction ms with
  | nil => simp [membersFor] at h
  | cons a as ih =>
    obtain ⟨k1, w⟩ := a
    by_cases hm : fieldMatches f k1 = true
    · simp only [membersFor, List.filter_cons, hm, if_true, List.cons.injEq, Prod.mk.injEq] at h
      obtain ⟨⟨hk, -⟩, hrest⟩ := h
      subst hk
      simp only [assocSet, if_true, membersFor, List.filter_cons, fieldMatches_self]
      rw [List.cons.injEq]
      exact ⟨rfl, hrest⟩
    · have hne : k1 ≠ f := by
        intro hk
        rw [hk, fieldMatches_self] at hm
        exact hm rfl
      simp only [membersFor, List.filter_cons, hm] at h
      simp only [assocSet, hne, if_false, membersFor, List.filter_cons, hm]
      exact ih h

theorem decodeObjectMetaMembers_filter (ms : List (String × Json)) (m : ObjectMeta) :
    decodeObjectMetaMembers ms m = decodeObjectMetaMembers (membersFor "annotations" ms) m := by
  induction ms generalizing m with
  | nil => rfl
  | cons a as ih =>
    obtain ⟨k, v⟩ := a
    by_cases hm : fieldMatches "annotations" k = true
    · simp only [membersFor, List.filter_cons, hm, if_true, decodeObjectMetaMembers]
      cases decodeStringMap m.Annotations v with
      | error e => rfl
      | ok a => exact ih _
    · simp only [membersFor, List.filter_cons, hm, decodeObjectMetaMembers]
      exact ih m

theorem decodeObjectWithMetaMembers_filter (ms : List (String × Json)) (m : objectWithMeta) :
    decodeObjectWithMetaMembers ms m =
      decodeObjectWithMetaMembers (membersFor "metadata" ms) m := by
  induction ms generalizing m with
  | nil => rfl
  | cons a as ih =>
    obtain ⟨k, v⟩ := a
    by_cases hm : fieldMatches "metadata" k = true
    · simp only [membersFor, List.filter_cons, hm, if_true, decodeObjectWithMetaMembers]
      cases decodeObjectMeta m.ObjectMeta v with
      | error e => rfl
      | ok a => exact ih _
    · simp only [membersFor, List.filter_cons, hm, decodeObjectWithMetaMembers]
      exact ih m

/-- Decoding an object with one metadata member comes down to decoding the
annotations members of that metadata. -/
theorem decodeObjectWithMeta_of_metadata (ms md : List (String × Json))
    (h : membersFor "metadata" ms = [("metadata", .obj md)]) :
    decodeObjectWithMeta {} (.obj ms) =
      match decodeObjectMetaMembers (membersFor "annotations" md) {} with
      | .error e => .error e
      | .ok om => .ok { ObjectMeta := om } := by
  rw [decodeObjectWithMeta, decodeObjectWithMetaMembers_filter, h]
  simp only [decodeObjectWithMetaMembers, fieldMatches_self, if_true, decodeObjectMeta]
  rw [decodeObjectMetaMembers_filter]

theorem hasMetadataSection_iff (doc : Json) :
    hasMetadataSection doc = true ↔
      ∃ ms md, doc = .obj ms ∧ membersFor "metadata" ms = [("metadata", .obj md)] ∧
        (membersFor "annotations" md = [] ∨
          ∃ av, membersFor "annotations" md = [("annotations", av)]) := by
  constructor
  · intro h
    cases doc with
    | obj ms =>
      refine ⟨ms, ?_⟩
      simp only [hasMetadataSection] at h
      split at h
      · rename_i k md hms
        simp only [Bool.and_eq_true, decide_eq_true_eq] at h
        obtain ⟨hk, h2⟩ := h
        subst hk
        refine ⟨md, rfl, hms, ?_⟩
        split at h2
        · rename_i hmd
          exact Or.inl hmd
        · rename_i k1 av hmd
          simp only [decide_eq_true_eq] at h2
          subst h2
          exact Or.inr ⟨av, hmd⟩
        · cases h2
      · cases h
    | null => simp [hasMetadataSection] at h
    | bool b => simp [hasMetadataSection] at h
    | num t => simp [hasMetadataSection] at h
    | str s => simp [hasMetadataSection] at h
    | arr vs => simp [hasMetadataSection] at h
  · rintro ⟨ms, md, rfl, hms, hmd⟩
    rcases hmd with hmd | ⟨av, hmd⟩
    · simp [hasMetadataSection, hms, hmd]
    · simp [hasMetadataSection, hms, hmd]

theorem membersFor_assocSet {f : String} {ms : List (String × Json)} (v1 : Json)
    (h : membersFor f ms = [] ∨ ∃ v, membersFor f ms = [(f, v)]) :
    membersFor f (assocSet f v1 ms) = [(f, v1)] := by
  rcases h with h | ⟨v, h⟩
  · exact membersFor_assocSet_of_nil v1 h
  · exact membersFor_assocSet_of_single v1 h

/-- The object after `add` has set the annotations member of its metadata. -/
theorem decode_after_set (ms md : List (String × Json)) (newAv : Json)
    (hms : membersFor "metadata" ms = [("metadata", .obj md)])
    (hmd : membersFor "annotations" md = [] ∨
      ∃ av, membersFor "annotations" md = [("annotations", av)]) :
    hasMetadataSection
        (.obj (assocSet "metadata" (.obj (assocSet "annotations" newAv md)) ms)) = true ∧
    decodeObjectWithMeta {}
        (.obj (assocSet "metadata" (.obj (assocSet "annotations" newAv md)) ms)) =
      match decodeStringMap none newAv with
      | .error e => .error e
      | .ok a => .ok { ObjectMeta := { Annotations := a } } := by
  have h1 := membersFor_assocSet (.obj (assocSet "annotations" newAv md)) (Or.inr ⟨_, hms⟩)
  have h2 := membersFor_assocSet newAv hmd
  refine ⟨(hasMetadataSection_iff _).2 ⟨_, _, rfl, h1, Or.inr ⟨_, h2⟩⟩, ?_⟩
  rw [decodeObjectWithMeta_of_metadata _ _ h1, h2]
  simp only [decodeObjectMetaMembers, fieldMatches_self, if_true]
  cases decodeStringMap none newAv with
  | error e => rfl
  | ok a => rfl

theorem applyPatch_create_mapping (ms md : List (String × Json)) (value : Json)
    (hms : assocGet "metadata" ms = some (.obj md)) :
    applyPatch [⟨"add", "/metadata/annotations", value⟩] (.obj ms) =
      .ok (.obj (assocSet "metadata" (.obj (assocSet "annotations" value md)) ms)) := by
  have hp : parsePointer "/metadata/annotations" = some ["metadata", "annotations"] := by decide
  simp only [applyPatch, applyOperation, if_true, hp, addAt, hms]

theorem applyPatch_add_member (ms md es : List (String × Json)) (value : Json)
    (hms : assocGet "metadata" ms = some (.obj md))
    (hmd : assocGet "annotations" md = some (.obj es)) :
    applyPatch
        [⟨"add", "/metadata/annotations/external-dns.alpha.kubernetes.io~1target", value⟩]
        (.obj ms) =
      .ok (.obj (assocSet "metadata" (.obj (assocSet "annotations"
        (.obj (assocSet "external-dns.alpha.kubernetes.io/target" value es)) md)) ms)) := by
  have hp : parsePointer "/metadata/annotations/external-dns.alpha.kubernetes.io~1target" =
      some ["metadata", "annotations", "external-dns.alpha.kubernetes.io/target"] := by decide
  simp only [applyPatch, applyOperation, if_true, hp, addAt, hms, hmd]

theorem decodePatch_create_mapping (ip : String) :
    decodePatch (render (.arr [.obj [("op", .str "add"), ("path", .str "/metadata/annotations"),
      ("value", .obj [("external-dns.alpha.kubernetes.io/target", .str ip)])]])) =
    .ok [⟨"add", "/metadata/annotations",
      .obj [("external-dns.alpha.kubernetes.io/target", .str ip)]⟩] := by
  have hp := parseJson_render (.arr [.obj [("op", .str "add"),
      ("path", .str "/metadata/annotations"),
      ("value", .obj [("external-dns.alpha.kubernetes.io/target", .str ip)])]]) rfl
  simp only [decodePatch, hp]
  rfl

theorem decodePatch_add_member (ip : String) :
    decodePatch (render (.arr [.obj [("op", .str "add"),
      ("path", .str "/metadata/annotations/external-dns.alpha.kubernetes.io~1target"),
      ("value", .str ip)]])) =
    .ok [⟨"add", "/metadata/annotations/external-dns.alpha.kubernetes.io~1target", .str ip⟩] := by
  have hp := parseJson_render (.arr [.obj [("op", .str "add"),
      ("path", .str "/metadata/annotations/external-dns.alpha.kubernetes.io~1target"),
      ("value", .str ip)]]) rfl
  simp only [decodePatch, hp]
  rfl

/-- A second admission of an object that now carries the target annotation. -/
theorem mutate_again_allows (c : controller) (lib : EncodingJson) (doc1 : Json)
    (a : List (String × String))
    (hdec1 : decodeObjectWithMeta {} doc1 =
      .ok ⟨⟨some (a ++ [("external-dns.alpha.kubernetes.io/target", c.ipAddress)])⟩⟩)
    (ha : assocGet "external-dns.alpha.kubernetes.io/target" a = none) :
    ∀ review1 request1 objMeta1, review1.Request = some request1 →
      (request1.Kind.Kind = "Ingress" ∨ request1.Kind.Kind = "Gateway") →
      lib.reads request1.Object.Raw doc1 objMeta1 →
      ∃ resp1, (c.mutate lib review1).outcome = .ok resp1 ∧ resp1.Allowed = true ∧
        resp1.Patch = "" ∧ resp1.PatchType = none := by
  intro review1 request1 objMeta1 hreq1 hkind1 hreads1
  obtain ⟨-, hd1, hlib1⟩ := hreads1
  rw [hdec1] at hd1
  cases hd1
  exact ⟨{ Allowed := true }, mutate_target_branch c lib review1 request1 _ c.ipAddress
    hreq1 hkind1 hlib1 (assocGet_append_new _ _ _ ha), rfl, rfl, rfl⟩

/-- C10, as stated, fails on the code: the Ingress `capitalizedIngressJson` has
a metadata section, and its annotation mapping, as `json.Unmarshal` reads it,
is a = b, without the target key; `mutate` returns the patch that adds a member
to "/metadata/annotations", and that patch does not apply to the object, which
has no member of that name. -/
theorem mutate_patch_fails_on_capitalized_annotations :
    parseJson capitalizedIngressJson = .ok capitalizedIngressDoc ∧
    referenceJson.UnmarshalObjectWithMeta capitalizedIngressJson =
      .ok ⟨⟨some [("a", "b")]⟩⟩ ∧
    hasMetadataSection capitalizedIngressDoc = false ∧
    ¬ ∃ resp ops doc1,
      (testController.mutate referenceJson
        (testReview "Ingress" capitalizedIngressJson "")).outcome = .ok resp ∧
      decodePatch resp.Patch = .ok ops ∧
      applyPatch ops capitalizedIngressDoc = .ok doc1 := by
  refine ⟨rfl, rfl, rfl, ?_⟩
  rintro ⟨resp, ops, doc1, hout, hdec, happ⟩
  have hrun : (testController.mutate referenceJson
      (testReview "Ingress" capitalizedIngressJson "")).outcome =
      .ok { Allowed := true,
            Patch := render (.arr [.obj [("op", .str "add"),
              ("path", .str "/metadata/annotations/external-dns.alpha.kubernetes.io~1target"),
              ("value", .str "10.0.0.1")]]),
            PatchType := some "JSONPatch", UID := "" } := rfl
  rw [hrun] at hout
  cases hout
  rw [decodePatch_add_member "10.0.0.1"] at hdec
  cases hdec
  have hfail : applyPatch
      [⟨"add", "/metadata/annotations/external-dns.alpha.kubernetes.io~1target",
        .str "10.0.0.1"⟩] capitalizedIngressDoc =
      .error "add operation does not apply: doc is missing path" := rfl
  rw [hfail] at happ
  cases happ

/-- C10, amended: take an object of kind Ingress or Gateway whose document has
exactly one member decoded as metadata, spelled so, holding at most one member
decoded as annotations, spelled so, and whose annotation map A lacks the target
key.  The patch `mutate` returns decodes; applied to the document under the
`add` semantics of JSON Patch it yields a document of the same shape whose
annotation map is A followed by the one entry target key = configured ipAddress
(every entry of A kept with its value); and `mutate` on the patched object
returns allowed = true with no patch. -/
theorem mutate_patch_adds_target_once (c : controller) (lib : EncodingJson)
    (review : AdmissionReview) (request : AdmissionRequest) (doc : Json)
    (objMeta : objectWithMeta)
    (hreq : review.Request = some request)
    (hkind : request.Kind.Kind = "Ingress" ∨ request.Kind.Kind = "Gateway")
    (hreads : lib.reads request.Object.Raw doc objMeta)
    (hmeta : hasMetadataSection doc = true)
    (hget : objMeta.ObjectMeta.Annotations.get? "external-dns.alpha.kubernetes.io/target" = none) :
    ∃ resp ops doc1,
      (c.mutate lib review).outcome = .ok resp ∧ resp.Allowed = true ∧
      decodePatch resp.Patch = .ok ops ∧
      applyPatch ops doc = .ok doc1 ∧
      hasMetadataSection doc1 = true ∧
      decodeObjectWithMeta {} doc1 = .ok ⟨⟨some (objMeta.ObjectMeta.Annotations.getD [] ++
          [("external-dns.alpha.kubernetes.io/target", c.ipAddress)])⟩⟩ ∧
      ∀ review1 request1 objMeta1, review1.Request = some request1 →
        (request1.Kind.Kind = "Ingress" ∨ request1.Kind.Kind = "Gateway") →
        lib.reads request1.Object.Raw doc1 objMeta1 →
        ∃ resp1, (c.mutate lib review1).outcome = .ok resp1 ∧ resp1.Allowed = true ∧
          resp1.Patch = "" ∧ resp1.PatchType = none := by
  obtain ⟨-, hdec, hunm⟩ := hreads
  obtain ⟨ms, md, rfl, hms, hmd⟩ := (hasMetadataSection_iff doc).1 hmeta
  have hgm := assocGet_of_membersFor hms
  rw [decodeObjectWithMeta_of_metadata _ _ hms] at hdec
  by_cases hlen : objMeta.ObjectMeta.Annotations.len = 0
  · -- no annotation: the patch creates the mapping
    have hA : objMeta.ObjectMeta.Annotations.getD [] = [] := by
      cases hAnn : objMeta.ObjectMeta.Annotations with
      | none => rfl
      | some l =>
        rw [hAnn] at hlen
        cases l with
        | nil => rfl
        | cons x xs => simp [StringMap.len] at hlen
    obtain ⟨hsec, hdec1⟩ := decode_after_set ms md
      (.obj [("external-dns.alpha.kubernetes.io/target", .str c.ipAddress)]) hms hmd
    have hdec2 : decodeObjectWithMeta {}
        (.obj (assocSet "metadata" (.obj (assocSet "annotations"
          (.obj [("external-dns.alpha.kubernetes.io/target", .str c.ipAddress)]) md)) ms)) =
        .ok ⟨⟨some ([] ++ [("external-dns.alpha.kubernetes.io/target", c.ipAddress)])⟩⟩ := by
      rw [hdec1]
      rfl
    refine ⟨_, _, _, mutate_patch_branch c lib review request objMeta _ hreq hkind hunm hget
      (getJsonPatch_of_len_zero c objMeta hlen), rfl, decodePatch_create_mapping c.ipAddress,
      applyPatch_create_mapping ms md _ hgm, hsec, ?_, ?_⟩
    · rw [hA]; exact hdec2
    · exact mutate_again_allows c lib _ [] hdec2 rfl
  · -- some annotations: the patch adds one member
    rcases hmd with hmd | ⟨av, hmd⟩
    · rw [hmd] at hdec
      simp only [decodeObjectMetaMembers] at hdec
      cases hdec
      exact absurd rfl hlen
    · have hga := assocGet_of_membersFor hmd
      rw [hmd] at hdec
      simp only [decodeObjectMetaMembers, fieldMatches_self, if_true] at hdec
      cases av with
      | null =>
        simp only [decodeStringMap] at hdec
        cases hdec
        exact absurd rfl hlen
      | bool b => simp [decodeStringMap] at hdec
      | num t => simp [decodeStringMap] at hdec
      | str s => simp [decodeStringMap] at hdec
      | arr vs => simp [decodeStringMap] at hdec
      | obj es =>
        simp only [decodeStringMap, Option.getD] at hdec
        cases hes : decodeMapEntries es [] with
        | error e => simp [hes] at hdec
        | ok a =>
          simp only [hes] at hdec
          cases hdec
          simp only [StringMap.get?] at hget
          obtain ⟨-, hkeys⟩ := decodeMapEntries_keeps es [] a _ hes hget
          have hset : assocSet "external-dns.alpha.kubernetes.io/target" (Json.str c.ipAddress) es =
              es ++ [("external-dns.alpha.kubernetes.io/target", .str c.ipAddress)] :=
            assocSet_of_absent _ _ _ hkeys
          obtain ⟨hsec, hdec1⟩ := decode_after_set ms md
            (.obj (assocSet "external-dns.alpha.kubernetes.io/target" (Json.str c.ipAddress) es))
            hms (Or.inr ⟨_, hmd⟩)
          have hdec2 : decodeObjectWithMeta {}
              (.obj (assocSet "metadata" (.obj (assocSet "annotations"
                (.obj (assocSet "external-dns.alpha.kubernetes.io/target"
                  (Json.str c.ipAddress) es)) md)) ms)) =
              .ok ⟨⟨some (a ++ [("external-dns.alpha.kubernetes.io/target", c.ipAddress)])⟩⟩ := by
            rw [hdec1, hset]
            simp only [decodeStringMap, Option.getD]
            rw [decodeMapEntries_append es _ [] a hes]
            simp only [decodeMapEntries, decodeString]
            rw [assocSet_of_absent _ _ _ ((assocGet_none_iff _ _).1 hget)]
          refine ⟨_, _, _, mutate_patch_branch c lib review request _ _ hreq hkind hunm hget
            (getJsonPatch_of_len_pos c _ hlen), rfl, decodePatch_add_member c.ipAddress,
            applyPatch_add_member ms md es _ hgm hga, hsec, hdec2, ?_⟩
          exact mutate_again_allows c lib _ a hdec2 hget

/-- Witness for the amended C10: the Ingress annotated with an ingress class
only, and its patched document read again. -/
theorem mutate_patch_adds_target_once_witness :
    referenceJson.reads annotatedIngressJson annotatedIngressDoc
      ⟨⟨some [("kubernetes.io/ingress.class", "nginx")]⟩⟩ ∧
    hasMetadataSection annotatedIngressDoc = true ∧
    referenceJson.reads patchedIngressJson patchedIngressDoc
      ⟨⟨some [("kubernetes.io/ingress.class", "nginx"),
        ("external-dns.alpha.kubernetes.io/target", "10.0.0.1")]⟩⟩ ∧
    ∃ resp ops doc1,
      (testController.mutate referenceJson
        (testReview "Ingress" annotatedIngressJson "u1")).outcome = .ok resp ∧
      resp.Allowed = true ∧
      decodePatch resp.Patch = .ok ops ∧
      applyPatch ops annotatedIngressDoc = .ok doc1 ∧
      hasMetadataSection doc1 = true ∧
      decodeObjectWithMeta {} doc1 = .ok ⟨⟨some
        ((some [("kubernetes.io/ingress.class", "nginx")] : StringMap).getD [] ++
          [("external-dns.alpha.kubernetes.io/target", testController.ipAddress)])⟩⟩ ∧
      ∀ review1 request1 objMeta1, review1.Request = some request1 →
        (request1.Kind.Kind = "Ingress" ∨ request1.Kind.Kind = "Gateway") →
        referenceJson.reads request1.Object.Raw doc1 objMeta1 →
        ∃ resp1, (testController.mutate referenceJson review1).outcome = .ok resp1 ∧
          resp1.Allowed = true ∧ resp1.Patch = "" ∧ resp1.PatchType = none :=
  ⟨⟨rfl, rfl, rfl⟩, rfl, ⟨rfl, rfl, rfl⟩,
    mutate_patch_adds_target_once testController referenceJson
      (testReview "Ingress" annotatedIngressJson "u1")
      { UID := "u1", Kind := { Kind := "Ingress" }, Object := { Raw := annotatedIngressJson } }
      annotatedIngressDoc ⟨⟨some [("kubernetes.io/ingress.class", "nginx")]⟩⟩
      rfl (Or.inl rfl) ⟨rfl, rfl, rfl⟩ rfl rfl⟩

/-- The patched document of the witness, computed: the class annotation is
kept and the target is added after it; a second admission of it is allowed
without a patch. -/
theorem annotated_ingress_patched :
    applyPatch [⟨"add", "/metadata/annotations/external-dns.alpha.kubernetes.io~1target",
        .str "10.0.0.1"⟩] annotatedIngressDoc = .ok patchedIngressDoc ∧
    (testController.mutate referenceJson (testReview "Ingress" patchedIngressJson "u2")).outcome =
      .ok { Allowed := true } :=
  ⟨rfl, rfl⟩

/-! ## Further properties of the handler and of `mutate` -/

/-- On the patch branch `mutate` echoes the request's uid. -/
theorem mutate_patch_echoes_uid (c : controller) (lib : EncodingJson) (review : AdmissionReview)
    (request : AdmissionRequest) (objMeta : objectWithMeta)
    (hreq : review.Request = some request)
    (hkind : request.Kind.Kind = "Ingress" ∨ request.Kind.Kind = "Gateway")
    (hdec : lib.UnmarshalObjectWithMeta request.Object.Raw = .ok objMeta)
    (hget : objMeta.ObjectMeta.Annotations.get? "external-dns.alpha.kubernetes.io/target" = none) :
    ∃ resp, (c.mutate lib review).outcome = .ok resp ∧ resp.Allowed = true ∧
      resp.PatchType = some "JSONPatch" ∧ resp.UID = request.UID := by
  obtain ⟨patchBytes, hpatch⟩ := getJsonPatch_ok c objMeta
  exact ⟨_, mutate_patch_branch c lib review request objMeta patchBytes hreq hkind hdec hget
    hpatch, rfl, rfl, rfl⟩

theorem mutate_patch_echoes_uid_witness :
    ∃ resp, (testController.mutate referenceJson
        (testReview "Gateway" zeroGatewayJson "u-42")).outcome = .ok resp ∧
      resp.Allowed = true ∧ resp.PatchType = some "JSONPatch" ∧ resp.UID = "u-42" :=
  mutate_patch_echoes_uid testController referenceJson
    (testReview "Gateway" zeroGatewayJson "u-42")
    { UID := "u-42", Kind := { Kind := "Gateway" }, Object := { Raw := zeroGatewayJson } }
    ⟨⟨none⟩⟩ rfl (Or.inr rfl) rfl rfl

/-- With a request in the envelope `mutate` returns a response, and its log
starts with the entry "admission review". -/
theorem mutate_returns_of_request (c : controller) (lib : EncodingJson)
    (review : AdmissionReview) (request : AdmissionRequest)
    (hreq : review.Request = some request) :
    (∃ resp, (c.mutate lib review).outcome = .ok resp) ∧
    ∃ entry rest, (c.mutate lib review).log = entry :: rest ∧
      entry.message = "admission review" := by
  simp only [controller.mutate, hreq]
  split_ifs
  · exact ⟨⟨_, rfl⟩, _, _, rfl, rfl⟩
  · cases lib.UnmarshalObjectWithMeta request.Object.Raw with
    | error err => exact ⟨⟨_, rfl⟩, _, _, rfl, rfl⟩
    | ok objMeta =>
      simp only []
      cases objMeta.ObjectMeta.Annotations.get? "external-dns.alpha.kubernetes.io/target" with
      | some ip => exact ⟨⟨_, rfl⟩, _, _, rfl, rfl⟩
      | none =>
        simp only []
        cases c.getJsonPatch objMeta with
        | error err => exact ⟨⟨_, rfl⟩, _, _, rfl, rfl⟩
        | ok patchBytes => exact ⟨⟨_, rfl⟩, _, _, rfl, rfl⟩

/-- The method `mutate` ends in a nil pointer dereference exactly when the
envelope has no request; otherwise it returns a response. -/
theorem mutate_panics_iff_no_request (c : controller) (lib : EncodingJson)
    (review : AdmissionReview) :
    ((c.mutate lib review).outcome = .panic nilDereference ↔ review.Request = none) ∧
    (review.Request ≠ none → ∃ resp, (c.mutate lib review).outcome = .ok resp) := by
  cases hreq : review.Request with
  | none =>
    refine ⟨⟨fun _ => rfl, fun _ => ?_⟩, fun h => absurd rfl h⟩
    simp only [controller.mutate, hreq]
  | some request =>
    obtain ⟨⟨resp, hresp⟩, -⟩ := mutate_returns_of_request c lib review request hreq
    refine ⟨⟨fun h => ?_, fun h => by cases h⟩, fun _ => ⟨resp, hresp⟩⟩
    rw [hresp] at h
    cases h

/-- The handler runs `mutate` exactly when the body was read, the Content-Type
is "application/json" and the body decodes as an envelope; a run of `mutate`
shows as its log entry "admission review" or as its nil pointer panic. -/
theorem webhook_reaches_mutate_iff (c : controller) (lib : EncodingJson) (w : ResponseWriter)
    (r : HttpRequest) :
    ((c.webhook lib w r).outcome = .panic nilDereference ∨
        ∃ e ∈ (c.webhook lib w r).log, e.message = "admission review") ↔
      ∃ body review, r.Body = .ok body ∧
        headerGet r.Header "Content-Type" = "application/json" ∧
        lib.UnmarshalAdmissionReview body = .ok review := by
  cases hbody : r.Body with
  | error err =>
    simp only [controller.webhook, hbody]
    constructor
    · rintro (h | ⟨e, he, hm⟩)
      · cases h
      · simp only [List.mem_cons, List.mem_singleton, List.not_mem_nil, or_false] at he
        rcases he with he | he <;> subst he <;> simp at hm
    · rintro ⟨body, review, h, -⟩
      cases h
  | ok body =>
    by_cases hct : headerGet r.Header "Content-Type" ≠ "application/json"
    · simp only [controller.webhook, hbody, if_pos hct]
      constructor
      · rintro (h | ⟨e, he, hm⟩)
        · cases h
        · simp only [List.mem_cons, List.mem_singleton, List.not_mem_nil, or_false] at he
          rcases he with he | he <;> subst he <;> simp at hm
      · rintro ⟨body1, review, -, h, -⟩
        exact absurd h hct
    · have hct1 : headerGet r.Header "Content-Type" = "application/json" := by
        by_contra h
        exact hct h
      cases hdec : lib.UnmarshalAdmissionReview body with
      | error err =>
        simp only [controller.webhook, hbody, if_neg hct, hdec]
        constructor
        · rintro (h | ⟨e, he, hm⟩)
          · cases h
          · simp only [List.mem_cons, List.mem_singleton, List.not_mem_nil, or_false] at he
            rcases he with he | he <;> subst he <;> simp at hm
        · rintro ⟨body1, review, h1, -, h2⟩
          cases h1
          rw [hdec] at h2
          cases h2
      | ok review =>
        refine ⟨fun _ => ⟨body, review, rfl, hct1, hdec⟩, fun _ => ?_⟩
        cases hreq : review.Request with
        | none =>
          left
          simp only [controller.webhook, hbody, if_neg hct, hdec, controller.mutate, hreq]
        | some request =>
          right
          obtain ⟨⟨resp, hresp⟩, entry, rest, hlog, hmsg⟩ :=
            mutate_returns_of_request c lib review request hreq
          refine ⟨entry, ?_, hmsg⟩
          simp only [controller.webhook, hbody, if_neg hct, hdec, hresp, hlog]
          cases lib.MarshalAdmissionReview { review with Response := some resp } with
          | error err => simp
          | ok response =>
            simp only []
            cases hwr : w.Write response with
            | mk w1 werr =>
              cases werr with
              | none => simp
              | some e => simp

/-- With a request in the envelope, `webhook` hands the envelope with the
response of `mutate` to `json.Marshal`, whether that response allows or
denies: when marshalling succeeds the answer is status 200 with the marshalled
bytes as body, and when it fails the answer is status 500 without a body (given
that the connection accepts the write). -/
theorem webhook_answers_with_envelope (c : controller) (lib : EncodingJson) (w : ResponseWriter)
    (r : HttpRequest) (body : String) (review : AdmissionReview) (request : AdmissionRequest)
    (hw : w.status = none) (hwe : w.writeError = none)
    (hbody : r.Body = .ok body)
    (hct : headerGet r.Header "Content-Type" = "application/json")
    (hdec : lib.UnmarshalAdmissionReview body = .ok review)
    (hreq : review.Request = some request) :
    ∃ resp, (c.mutate lib review).outcome = .ok resp ∧
      (∀ bytes, lib.MarshalAdmissionReview { review with Response := some resp } = .ok bytes →
        ∃ w1, (c.webhook lib w r).outcome = .ok w1 ∧ w1.status = some 200 ∧
          w1.body = w.body ++ bytes) ∧
      (∀ err, lib.MarshalAdmissionReview { review with Response := some resp } = .error err →
        ∃ w1, (c.webhook lib w r).outcome = .ok w1 ∧ w1.status = some 500 ∧
          w1.body = w.body) := by
  have hct1 : ¬ headerGet r.Header "Content-Type" ≠ "application/json" := fun h => h hct
  obtain ⟨⟨resp, hmut⟩, -⟩ := mutate_returns_of_request c lib review request hreq
  refine ⟨resp, hmut, ?_, ?_⟩
  · intro bytes hmar
    refine ⟨{ w.WriteHeader 200 with body := (w.WriteHeader 200).body ++ bytes }, ?_, ?_, ?_⟩
    · simp only [controller.webhook, hbody, if_neg hct1, hdec, hmut, hmar,
        ResponseWriter.Write, hwe]
    · simp [ResponseWriter.WriteHeader, hw]
    · simp [ResponseWriter.WriteHeader, hw]
  · intro err hmar
    refine ⟨w.WriteHeader StatusInternalServerError, ?_, ?_, ?_⟩
    · simp only [controller.webhook, hbody, if_neg hct1, hdec, hmut, hmar]
    · simp [ResponseWriter.WriteHeader, hw, StatusInternalServerError]
    · simp [ResponseWriter.WriteHeader, hw]

/-- Witness: an envelope for an Ingress whose object is `null`; the denial is
answered with status 200. -/
theorem webhook_answers_with_envelope_witness :
    referenceJson.UnmarshalAdmissionReview deniedEnvelopeJson =
      .ok { Kind := "AdmissionReview", APIVersion := "admission.k8s.io/v1",
            Request := some { UID := "u1", Kind := { Kind := "Ingress" } } } ∧
    ∃ resp,
      (testController.mutate referenceJson
        { Kind := "AdmissionReview", APIVersion := "admission.k8s.io/v1",
          Request := some { UID := "u1", Kind := { Kind := "Ingress" } } }).outcome = .ok resp ∧
      (∀ bytes, referenceJson.MarshalAdmissionReview
          { Kind := "AdmissionReview", APIVersion := "admission.k8s.io/v1",
            Request := some { UID := "u1", Kind := { Kind := "Ingress" } },
            Response := some resp } = .ok bytes →
        ∃ w1, (testController.webhook referenceJson {}
            (jsonRequest "application/json" deniedEnvelopeJson)).outcome = .ok w1 ∧
          w1.status = some 200 ∧ w1.body = ({} : ResponseWriter).body ++ bytes) ∧
      (∀ err, referenceJson.MarshalAdmissionReview
          { Kind := "AdmissionReview", APIVersion := "admission.k8s.io/v1",
            Request := some { UID := "u1", Kind := { Kind := "Ingress" } },
            Response := some resp } = .error err →
        ∃ w1, (testController.webhook referenceJson {}
            (jsonRequest "application/json" deniedEnvelopeJson)).outcome = .ok w1 ∧
          w1.status = some 500 ∧ w1.body = ({} : ResponseWriter).body) :=
  ⟨rfl, webhook_answers_with_envelope testController referenceJson {}
    (jsonRequest "application/json" deniedEnvelopeJson) deniedEnvelopeJson
    { Kind := "AdmissionReview", APIVersion := "admission.k8s.io/v1",
      Request := some { UID := "u1", Kind := { Kind := "Ingress" } } }
    { UID := "u1", Kind := { Kind := "Ingress" } }
    rfl rfl rfl rfl rfl rfl⟩

/-- The answer to `deniedEnvelopeJson`, computed: status 200, and the response
of `mutate` inside the envelope is the denial. -/
theorem webhook_denied_envelope_status :
    (∃ w1, (testController.webhook referenceJson {}
        (jsonRequest "application/json" deniedEnvelopeJson)).outcome = .ok w1 ∧
      w1.status = some 200) ∧
    (testController.mutate referenceJson
        { Kind := "AdmissionReview", APIVersion := "admission.k8s.io/v1",
          Request := some { UID := "u1", Kind := { Kind := "Ingress" } } }).outcome =
      .ok { Result := some { Message := "unexpected end of JSON input" } } :=
  ⟨⟨_, rfl, rfl⟩, rfl⟩

end Webhook
